import Mathlib

/-!
Verification of the `labyrinth` maze generator/solver.

This file shallowly embeds the core of the `labyrinth` package
(`labyrinth/graph.py`, `labyrinth/grid.py`, `labyrinth/maze.py`,
`labyrinth/generate.py`, `labyrinth/solve.py`,
`labyrinth/utils/collections.py`, `labyrinth/utils/event.py`) and proves
or refutes the specification's claims about it.

Modelling conventions:
* Python `raise` is modelled with `Except String` (or `Option` where only
  one failure is possible).
* Python's arbitrary `set`/`dict` iteration orders are modelled by
  explicit enumeration oracles; theorems quantify over every valid oracle.
* Python `while` loops that are not structurally recursive are modelled
  with an explicit fuel parameter; fuel exhaustion is an `error` distinct
  from any error the source can raise, and theorems either supply
  provably sufficient fuel or hold for every fuel.
-/

/-! ## Cells and directions (`labyrinth/grid.py`, `labyrinth/maze.py`) -/

/-- A cell is identified by its `(row, column)` coordinates
(`Cell.coordinates` in `labyrinth/grid.py`). -/
abbrev Cell : Type := Nat × Nat

/-- `Direction` from `labyrinth/maze.py`: the four compass directions. -/
inductive Direction : Type
  | N
  | S
  | E
  | W
deriving DecidableEq, Repr, Fintype

/-- `Direction.dx`: change in column when moving in this direction.
`N = (0, -1)`, `S = (0, 1)`, `E = (1, 0)`, `W = (-1, 0)`. -/
def Direction.dx : Direction → Int
  | .N => 0
  | .S => 0
  | .E => 1
  | .W => -1

/-- `Direction.dy`: change in row when moving in this direction. -/
def Direction.dy : Direction → Int
  | .N => -1
  | .S => 1
  | .E => 0
  | .W => 0

/-- `Direction.opposite`: the unique direction whose `(dx, dy)` vector is
the negation of this one's (the source scans the enumeration for it). -/
def Direction.opposite : Direction → Direction
  | .N => .S
  | .S => .N
  | .E => .W
  | .W => .E

/-- `Direction.opposite` agrees with the source's search for the direction
with the negated vector. -/
theorem Direction.opposite_spec (d : Direction) :
    d.opposite.dx = -d.dx ∧ d.opposite.dy = -d.dy := by
  cases d <;> simp [Direction.opposite, Direction.dx, Direction.dy]

/-- `Direction.between(start_cell, end_cell)` from `labyrinth/maze.py`:
the direction whose vector equals the coordinate delta from `a` to `b`.
The source raises `StopIteration` when no direction matches (non-adjacent
cells); that failure is modelled as `none`. -/
def Direction.between (a b : Cell) : Option Direction :=
  let dx : Int := (b.2 : Int) - (a.2 : Int)
  let dy : Int := (b.1 : Int) - (a.1 : Int)
  if dx = 0 ∧ dy = -1 then some .N
  else if dx = 0 ∧ dy = 1 then some .S
  else if dx = 1 ∧ dy = 0 then some .E
  else if dx = -1 ∧ dy = 0 then some .W
  else none

theorem Direction.between_spec {a b : Cell} {d : Direction} :
    Direction.between a b = some d ↔
      (b.2 : Int) - (a.2 : Int) = d.dx ∧ (b.1 : Int) - (a.1 : Int) = d.dy := by
  cases d <;>
    · simp only [Direction.between, Direction.dx, Direction.dy]
      split_ifs <;> simp_all

/-- Reversing the cells reverses the direction. -/
theorem Direction.between_symm {a b : Cell} {d : Direction}
    (h : Direction.between a b = some d) :
    Direction.between b a = some d.opposite := by
  rw [Direction.between_spec] at h ⊢
  obtain ⟨h1, h2⟩ := h
  obtain ⟨o1, o2⟩ := Direction.opposite_spec d
  omega

/-- The target cell is determined by the source cell and the direction. -/
theorem Direction.between_right_unique {a b b' : Cell} {d : Direction}
    (h : Direction.between a b = some d) (h' : Direction.between a b' = some d) :
    b = b' := by
  rw [Direction.between_spec] at h h'
  obtain ⟨h1, h2⟩ := h
  obtain ⟨h3, h4⟩ := h'
  have : b.1 = b'.1 := by omega
  have : b.2 = b'.2 := by omega
  exact Prod.ext ‹b.1 = b'.1› ‹b.2 = b'.2›

theorem Direction.opposite_opposite (d : Direction) : d.opposite.opposite = d := by
  cases d <;> rfl

theorem Direction.between_irrefl (a : Cell) : Direction.between a a = none := by
  simp [Direction.between]

/-! ## Wall state and `Maze.open_wall`

Each `Cell` in the source owns a mutable `open_walls : set of Direction`.
The aggregate wall state of a maze is modelled as a finite set of
`(cell, direction)` pairs: `(c, d) ∈ W` means `d ∈ c.open_walls`. -/

/-- The aggregate `open_walls` state of all cells of a maze. -/
abbrev WallState : Type := Finset (Cell × Direction)

/-- The set `cell.open_walls` of a single cell, read off the aggregate state. -/
def openDirs (W : WallState) (c : Cell) : Finset Direction :=
  (W.filter (fun e => e.1 = c)).image (fun e => e.2)

theorem mem_openDirs {W : WallState} {c : Cell} {d : Direction} :
    d ∈ openDirs W c ↔ (c, d) ∈ W := by
  constructor
  · intro h
    simp only [openDirs, Finset.mem_image, Finset.mem_filter] at h
    obtain ⟨e, ⟨he, he1⟩, he2⟩ := h
    have : e = (c, d) := by
      cases e
      simp_all
    rwa [this] at he
  · intro h
    simp only [openDirs, Finset.mem_image, Finset.mem_filter]
    exact ⟨(c, d), ⟨h, rfl⟩, rfl⟩

/-- `cell.open_walls` is empty, the emptiness test used by both generators. -/
def noOpenWalls (W : WallState) (c : Cell) : Prop :=
  ∀ e ∈ W, e.1 ≠ c

instance (W : WallState) (c : Cell) : Decidable (noOpenWalls W c) := by
  unfold noOpenWalls
  infer_instance

theorem noOpenWalls_iff {W : WallState} {c : Cell} :
    noOpenWalls W c ↔ ∀ d, (c, d) ∉ W := by
  constructor
  · intro h d hd
    exact h (c, d) hd rfl
  · intro h e he he1
    apply h e.2
    have heq : (e.1, e.2) = e := rfl
    rw [he1] at heq
    rwa [heq]

/-- `Maze.open_wall(start_cell, end_cell)` from `labyrinth/maze.py`:
compute `d = Direction.between(start, end)`, add `d` to `start.open_walls`
and `d.opposite` to `end.open_walls`.  The `StopIteration` raised for
non-adjacent cells is modelled as `none`. -/
def open_wall (W : WallState) (a b : Cell) : Option WallState :=
  (Direction.between a b).map (fun d => insert (b, d.opposite) (insert (a, d) W))

/-- A sequence of `Maze.open_wall` calls, failing as soon as one fails. -/
def applyOpens (W : WallState) (l : List (Cell × Cell)) : Option WallState :=
  l.foldlM (fun s e => open_wall s e.1 e.2) W

/-- Two cells are coordinate-adjacent (`|Δrow| + |Δcol| = 1`), the
precondition under which `Maze.open_wall` is called. -/
def adjacentCells (a b : Cell) : Prop :=
  (Direction.between a b).isSome

instance (a b : Cell) : Decidable (adjacentCells a b) := by
  unfold adjacentCells
  infer_instance

/-- The wall-symmetry invariant of §3 of the spec: whenever `d` is open on
`a` and `b` is `a`'s neighbor in direction `d`, then `d.opposite` is open
on `b`. -/
def WallSymm (W : WallState) : Prop :=
  ∀ a b d, (a, d) ∈ W → Direction.between a b = some d → (b, d.opposite) ∈ W

theorem wallSymm_empty : WallSymm (∅ : WallState) := by
  intro a b d h
  simp at h

theorem wallSymm_open_wall {W W' : WallState} {x y : Cell}
    (hW : WallSymm W) (h : open_wall W x y = some W') : WallSymm W' := by
  unfold open_wall at h
  cases hxy : Direction.between x y with
  | none => rw [hxy] at h; cases h
  | some d =>
    rw [hxy] at h
    simp only [Option.map_some', Option.some.injEq] at h
    subst h
    intro a b e hae hab
    simp only [Finset.mem_insert, Prod.mk.injEq] at hae
    rcases hae with ⟨ha, he⟩ | ⟨ha, he⟩ | hW'
    · -- `(a, e) = (y, d.opposite)`: the matching neighbor is `x`
      rw [ha, he] at hab
      have hbx : b = x := Direction.between_right_unique hab (Direction.between_symm hxy)
      rw [hbx, he, Direction.opposite_opposite]
      simp
    · -- `(a, e) = (x, d)`: the matching neighbor is `y`
      rw [ha, he] at hab
      have hby : b = y := Direction.between_right_unique hab hxy
      rw [hby, he]
      simp
    · -- an old wall: use the invariant for `W`
      have := hW a b e hW' hab
      simp [this]

/-- **C3.** After any sequence of `Maze.open_wall` calls on pairs of
adjacent cells, starting from a fresh grid (every `open_walls` empty),
wall symmetry holds: if direction `d` is in `a.open_walls` and `b` is
`a`'s grid-neighbor in direction `d`, then `d.opposite` is in
`b.open_walls`.  (Adjacency makes every call succeed, so the sequence
yields a final state.) -/
theorem open_wall_preserves_symmetry (l : List (Cell × Cell))
    (hadj : ∀ p ∈ l, adjacentCells p.1 p.2) :
    ∃ W', applyOpens ∅ l = some W' ∧ WallSymm W' := by
  suffices h : ∀ (W : WallState), WallSymm W →
      ∃ W', applyOpens W l = some W' ∧ WallSymm W' from h ∅ wallSymm_empty
  induction l with
  | nil =>
    intro W hW
    exact ⟨W, rfl, hW⟩
  | cons p rest ih =>
    intro W hW
    have hp : adjacentCells p.1 p.2 := hadj p (List.mem_cons_self p rest)
    unfold adjacentCells at hp
    cases hd : Direction.between p.1 p.2 with
    | none => rw [hd] at hp; cases hp
    | some d =>
      have hop : open_wall W p.1 p.2 = some (insert (p.2, d.opposite) (insert (p.1, d) W)) := by
        unfold open_wall
        rw [hd]
        rfl
      have hW1 : WallSymm (insert (p.2, d.opposite) (insert (p.1, d) W)) :=
        wallSymm_open_wall hW hop
      obtain ⟨W', hW', hsymm⟩ :=
        ih (fun q hq => hadj q (List.mem_cons_of_mem p hq)) _ hW1
      refine ⟨W', ?_, hsymm⟩
      unfold applyOpens at hW' ⊢
      simp only [List.foldlM_cons, hop]
      exact hW'

/-- Witness for C3 at the concrete call sequence `[open_wall((0,0),(0,1))]`. -/
theorem open_wall_preserves_symmetry_witness :
    (∀ p ∈ [(((0 : Nat), (0 : Nat)), ((0 : Nat), (1 : Nat)))], adjacentCells p.1 p.2) ∧
      ∃ W', applyOpens ∅ [((0, 0), (0, 1))] = some W' ∧ WallSymm W' :=
  ⟨by decide, open_wall_preserves_symmetry _ (by decide)⟩

/-! ## `Graph` (`labyrinth/graph.py`)

The source stores a graph as `_adjacencies : dict[vertex, set[vertex]]`
plus a `bidirectional` flag.  The dict-of-sets is embedded as the set of
registered vertices together with the set of directed pairs
`(u, v)` with `v ∈ _adjacencies[u]`; an entry mapping to the empty set is
a vertex with no outgoing pairs.  Python `KeyError`/`ValueError` become
`Except.error`. -/

structure Graph (V : Type) where
  verts : Finset V
  pairs : Finset (V × V)
  bidirectional : Bool

/-- Equality of `Except` results is decidable. -/
instance {E A : Type} [DecidableEq E] [DecidableEq A] : DecidableEq (Except E A) := fun x y =>
  match x, y with
  | .error a, .error b =>
      if h : a = b then isTrue (by rw [h]) else isFalse (fun hc => h (by cases hc; rfl))
  | .error _, .ok _ => isFalse (fun hc => by cases hc)
  | .ok _, .error _ => isFalse (fun hc => by cases hc)
  | .ok a, .ok b =>
      if h : a = b then isTrue (by rw [h]) else isFalse (fun hc => h (by cases hc; rfl))

/-- Equality of graphs is decidable componentwise. -/
instance {V : Type} [DecidableEq V] : DecidableEq (Graph V) := fun g h =>
  decidable_of_iff (g.verts = h.verts ∧ g.pairs = h.pairs ∧ g.bidirectional = h.bidirectional)
    ⟨fun ⟨h1, h2, h3⟩ => by cases g; cases h; simp_all, fun h => by rw [h]; exact ⟨rfl, rfl, rfl⟩⟩

variable {V : Type} [DecidableEq V]

/-- `Graph()` with no vertices or edges. -/
def Graph.empty (bidirectional : Bool) : Graph V :=
  ⟨∅, ∅, bidirectional⟩

/-- `self._adjacencies[v]`, the adjacency set of a vertex. -/
def Graph.adjOf (g : Graph V) (v : V) : Finset V :=
  (g.pairs.filter (fun e => e.1 = v)).image (fun e => e.2)

theorem Graph.mem_adjOf {g : Graph V} {u v : V} :
    v ∈ g.adjOf u ↔ (u, v) ∈ g.pairs := by
  constructor
  · intro h
    simp only [Graph.adjOf, Finset.mem_image, Finset.mem_filter] at h
    obtain ⟨e, ⟨he, he1⟩, he2⟩ := h
    have : e = (u, v) := by
      cases e
      simp_all
    rwa [this] at he
  · intro h
    simp only [Graph.adjOf, Finset.mem_image, Finset.mem_filter]
    exact ⟨(u, v), ⟨h, rfl⟩, rfl⟩

/-- `Graph.add_vertex`: register a vertex (no-op when present). -/
def Graph.add_vertex (g : Graph V) (v : V) : Graph V :=
  if v ∈ g.verts then g else { g with verts := insert v g.verts }

/-- `Graph._ensure_vertices`, specialised to one vertex. -/
def Graph.ensure (g : Graph V) (v : V) : Except String Unit :=
  if v ∈ g.verts then .ok () else .error "Invalid vertex"

/-- `Graph.add_edge(left, right)`: requires both vertices registered,
adds `right` to `left`'s adjacency set and, when bidirectional, `left`
to `right`'s. -/
def Graph.add_edge (g : Graph V) (a b : V) : Except String (Graph V) :=
  if a ∈ g.verts then
    if b ∈ g.verts then
      .ok { g with pairs :=
        if g.bidirectional then insert (b, a) (insert (a, b) g.pairs)
        else insert (a, b) g.pairs }
    else .error "Invalid vertex"
  else .error "Invalid vertex" 

/-- `Graph.remove_edge(left, right)`: requires both vertices registered;
`set.remove` raises `KeyError` when the element is absent. -/
def Graph.remove_edge (g : Graph V) (a b : V) : Except String (Graph V) :=
  if a ∈ g.verts then
    if b ∈ g.verts then
      if (a, b) ∉ g.pairs then .error "KeyError" else
        if g.bidirectional then
          if (b, a) ∉ g.pairs.erase (a, b) then .error "KeyError" else
            .ok { g with pairs := (g.pairs.erase (a, b)).erase (b, a) }
        else
          .ok { g with pairs := g.pairs.erase (a, b) }
    else .error "Invalid vertex"
  else .error "Invalid vertex" 

/-- `Graph.remove_vertex(v)`: requires `v` registered; for each
`n ∈ _adjacencies[v]`, `_adjacencies[n].remove(v)` (raising `KeyError`
when `v ∉ _adjacencies[n]`); finally `del _adjacencies[v]`.  Note that a
pair `(u, v)` with `(v, u) ∉ pairs` is *not* removed — the dangling
reference the non-bidirectional case can leave behind. -/
def Graph.remove_vertex (g : Graph V) (v : V) : Except String (Graph V) :=
  if v ∈ g.verts then
    if ∃ n ∈ g.adjOf v, (n, v) ∉ g.pairs then .error "KeyError" else
      .ok { g with
        verts := g.verts.erase v,
        pairs := g.pairs.filter (fun e => ¬ e.1 = v ∧ ¬ (e.2 = v ∧ (v, e.1) ∈ g.pairs)) }
  else .error "Invalid vertex" 

/-- `Graph.has_edge(left, right)`. -/
def Graph.has_edge (g : Graph V) (a b : V) : Except String Bool :=
  if a ∈ g.verts then
    if b ∈ g.verts then .ok (decide ((a, b) ∈ g.pairs))
    else .error "Invalid vertex"
  else .error "Invalid vertex" 

/-- `Graph.neighbors(v)`: fails when `v` was never registered. -/
def Graph.neighbors (g : Graph V) (v : V) : Except String (Finset V) :=
  if v ∈ g.verts then .ok (g.adjOf v) else .error "Invalid vertex" 

/-! ### Traversals

`breadth_first_search` and `depth_first_search` share a worklist loop:
pop a vertex; if unvisited, call `visit_fn` on it, mark it, and insert
its unvisited neighbors into the worklist (queue end for BFS, stack top
for DFS).  The visit log doubles as the visited set (the source marks a
vertex visited exactly when `visit_fn` runs).  Python's arbitrary
`set` iteration order is an oracle `enum : V → List V`; the loop is
fuelled, with `searchFuel` proved sufficient. -/

/-- One list per vertex giving the iteration order of its adjacency set:
each vertex's list enumerates its adjacency set without repetition. -/
def enumOk (g : Graph V) (enum : V → List V) : Prop :=
  ∀ v ∈ g.verts, (enum v).Nodup ∧ (enum v).toFinset = g.adjOf v

instance (g : Graph V) (enum : V → List V) [DecidableEq V] :
    Decidable (enumOk g enum) := by
  unfold enumOk
  infer_instance

/-- The shared worklist loop of both traversals.  `combine new rest` says
where freshly discovered vertices go. -/
def searchAux (g : Graph V) (enum : V → List V)
    (combine : List V → List V → List V) :
    Nat → List V → List V → Except String (List V)
  | 0, _, _ => .error "out of fuel"
  | _ + 1, acc, [] => .ok acc
  | fuel + 1, acc, v :: rest =>
      if v ∈ acc then searchAux g enum combine fuel acc rest
      else if v ∈ g.verts then
        let fresh := (enum v).filter (fun n => n ∉ acc ++ [v])
        searchAux g enum combine fuel (acc ++ [v]) (combine fresh rest)
      else
        -- `visit_fn(v)` has already run, then `self.neighbors(v)` raises
        .error "Invalid vertex"

/-- Sufficient fuel: one unit per worklist entry plus one per vertex and
one per adjacency-set entry of each vertex, plus one. -/
def searchFuel (g : Graph V) (worklist : List V) : Nat :=
  worklist.length + (g.verts.sum (fun v => (g.adjOf v).card + 1)) + 1

/-- BFS appends fresh vertices at the end of the queue. -/
def bfsCombine : List V → List V → List V := fun fresh rest => rest ++ fresh

/-- DFS pushes fresh vertices on top of the stack; the last one pushed is
popped first. -/
def dfsCombine : List V → List V → List V := fun fresh rest => fresh.reverse ++ rest

/-- `Graph.breadth_first_search(start, visit_fn)`; the result is the list
of vertices in the order `visit_fn` was called on them. -/
def Graph.breadth_first_search (g : Graph V) (enum : V → List V) (start : V) :
    Except String (List V) := do
  _ ← g.ensure start
  searchAux g enum bfsCombine (searchFuel g [start]) [] [start]

/-- `Graph.depth_first_search(start, visit_fn)`; the result is the list
of vertices in the order `visit_fn` was called on them. -/
def Graph.depth_first_search (g : Graph V) (enum : V → List V) (start : V) :
    Except String (List V) := do
  _ ← g.ensure start
  searchAux g enum dfsCombine (searchFuel g [start]) [] [start]

/-! ### Graph invariant and reachability -/

/-- The §3 adjacency invariant: every vertex referenced in an adjacency
set is itself registered (keys of `_adjacencies` are registered by
construction; referenced vertices are the claim's concern). -/
def Graph.Invariant (g : Graph V) : Prop :=
  ∀ e ∈ g.pairs, e.1 ∈ g.verts ∧ e.2 ∈ g.verts

instance (g : Graph V) : Decidable g.Invariant := by
  unfold Graph.Invariant
  infer_instance

/-- Adjacency is symmetric; holds for every bidirectional graph built
through the API. -/
def Graph.Symm (g : Graph V) : Prop :=
  ∀ a b, (a, b) ∈ g.pairs → (b, a) ∈ g.pairs

instance (g : Graph V) : Decidable g.Symm := by
  unfold Graph.Symm
  have : (∀ e ∈ g.pairs, (e.2, e.1) ∈ g.pairs) ↔ g.Symm := by
    unfold Graph.Symm
    constructor
    · intro h a b hab
      exact h (a, b) hab
    · intro h e he
      exact h e.1 e.2 (by rwa [Prod.mk.eta])
  exact decidable_of_iff _ this

/-- `v` is reachable from `u` along adjacency-set membership. -/
def Graph.Reaches (g : Graph V) (u v : V) : Prop :=
  Relation.ReflTransGen (fun a b => (a, b) ∈ g.pairs) u v

/-- A list is in discovery order: every element except the first is
adjacent to some earlier element. -/
def DiscList (g : Graph V) (l : List V) : Prop :=
  ∀ p x s, l = p ++ x :: s → p = [] ∨ ∃ y ∈ p, (y, x) ∈ g.pairs

/-- Appending a vertex adjacent to an earlier one preserves discovery
order. -/
theorem DiscList.append_singleton {g : Graph V} {l : List V} {v : V}
    (hd : DiscList g l) (hv : l = [] ∨ ∃ y ∈ l, (y, v) ∈ g.pairs) :
    DiscList g (l ++ [v]) := by
  intro p x s hsplit
  rcases List.append_eq_append_iff.mp hsplit with ⟨a', ha1, ha2⟩ | ⟨c', hc1, hc2⟩
  · cases a' with
    | nil =>
      simp only [List.nil_append, List.cons.injEq] at ha2
      rw [List.append_nil] at ha1
      rcases hv with h | h
      · left
        rw [ha1, h]
      · right
        obtain ⟨y, hy, hp⟩ := h
        refine ⟨y, by rw [ha1]; exact hy, ?_⟩
        rw [← ha2.1]
        exact hp
    | cons b bs =>
      simp only [List.cons_append, List.cons.injEq] at ha2
      have : ([] : List V) = bs ++ x :: s := ha2.2
      simp at this
  · cases c' with
    | nil =>
      rw [List.append_nil] at hc1
      simp only [List.nil_append, List.cons.injEq] at hc2
      rcases hv with h | h
      · left
        rw [← hc1, h]
      · right
        obtain ⟨y, hy, hp⟩ := h
        refine ⟨y, by rw [hc1] at hy; exact hy, ?_⟩
        rw [hc2.1]
        exact hp
    | cons y c'' =>
      simp only [List.cons_append, List.cons.injEq] at hc2
      obtain ⟨hxy, hs⟩ := hc2
      rw [← hxy] at hc1
      exact hd p x c'' hc1

/-- The two worklist disciplines agree on membership and length. -/
def CombineOk (combine : List V → List V → List V) : Prop :=
  (∀ fresh rest (x : V), x ∈ combine fresh rest ↔ x ∈ fresh ∨ x ∈ rest) ∧
    (∀ fresh rest : List V, (combine fresh rest).length = fresh.length + rest.length)

theorem bfsCombine_ok : CombineOk (bfsCombine (V := V)) := by
  constructor
  · intro fresh rest x
    simp [bfsCombine, or_comm]
  · intro fresh rest
    simp [bfsCombine, Nat.add_comm]

theorem dfsCombine_ok : CombineOk (dfsCombine (V := V)) := by
  constructor
  · intro fresh rest x
    simp [dfsCombine]
  · intro fresh rest
    simp [dfsCombine]

/-- Remaining-work measure for the worklist loop. -/
def searchMeasure (g : Graph V) (acc work : List V) : Nat :=
  work.length + ((g.verts \ acc.toFinset).sum (fun v => (g.adjOf v).card + 1))

/-- Main loop invariant proof for the shared worklist loop: with enough
fuel, on a well-formed graph the loop returns (no error and no fuel
exhaustion) a duplicate-free list extending `acc` that contains every
worklist entry, only vertices reachable from `start`, is closed under
adjacency, and is in discovery order. -/
theorem searchAux_spec {g : Graph V} {enum : V → List V}
    {combine : List V → List V → List V} {start : V}
    (hInv : g.Invariant) (hEnum : enumOk g enum) (hComb : CombineOk combine) :
    ∀ fuel acc work,
      (∀ v ∈ acc, v ∈ g.verts ∧ g.Reaches start v) →
      (∀ v ∈ work, v ∈ g.verts ∧ g.Reaches start v) →
      (∀ v ∈ acc, ∀ n ∈ g.adjOf v, n ∈ acc ∨ n ∈ work) →
      acc.Nodup →
      DiscList g acc →
      (∀ v ∈ work, v ∈ acc ∨ (acc = [] ∧ v = start) ∨ ∃ y ∈ acc, (y, v) ∈ g.pairs) →
      searchMeasure g acc work + 1 ≤ fuel →
      ∃ res, searchAux g enum combine fuel acc work = .ok res ∧
        acc <+: res ∧
        res.Nodup ∧
        (∀ v ∈ res, v ∈ g.verts ∧ g.Reaches start v) ∧
        (∀ v ∈ work, v ∈ res) ∧
        (∀ v ∈ res, ∀ n ∈ g.adjOf v, n ∈ res) ∧
        DiscList g res := by
  intro fuel
  induction fuel with
  | zero =>
    intro acc work _ _ _ _ _ _ hfuel
    omega
  | succ fuel ih =>
    intro acc work hacc hwork hclosed hnodup hdisc hdiscw hfuel
    match work with
    | [] =>
      refine ⟨acc, rfl, List.prefix_refl acc, hnodup, hacc, ?_, ?_, hdisc⟩
      · intro v hv
        cases hv
      · intro v hv n hn
        rcases hclosed v hv n hn with h | h
        · exact h
        · cases h
    | v :: rest =>
      by_cases hv : v ∈ acc
      · -- already visited: skip
        rw [searchAux, if_pos hv]
        have hfuel' : searchMeasure g acc rest + 1 ≤ fuel := by
          unfold searchMeasure at hfuel ⊢
          simp only [List.length_cons] at hfuel
          omega
        obtain ⟨res, hres, hpre, hnd, hmem, hwk, hcl, hdl⟩ :=
          ih acc rest hacc (fun u hu => hwork u (List.mem_cons_of_mem v hu))
            (fun u hu n hn => by
              rcases hclosed u hu n hn with h | h
              · exact Or.inl h
              · rcases List.mem_cons.mp h with h | h
                · exact Or.inl (h ▸ hv)
                · exact Or.inr h)
            hnodup hdisc
            (fun u hu => hdiscw u (List.mem_cons_of_mem v hu)) hfuel'
        refine ⟨res, hres, hpre, hnd, hmem, ?_, hcl, hdl⟩
        intro u hu
        rcases List.mem_cons.mp hu with h | h
        · exact h ▸ hpre.subset (h ▸ hv)
        · exact hwk u h
      · -- first visit of `v`
        have hvverts : v ∈ g.verts := (hwork v (List.mem_cons_self v rest)).1
        rw [searchAux, if_neg hv, if_pos hvverts]
        set fresh := (enum v).filter (fun n => n ∉ acc ++ [v]) with hfresh
        have henumv := hEnum v hvverts
        have hfreshadj : ∀ n ∈ fresh, n ∈ g.adjOf v := by
          intro n hn
          rw [hfresh, List.mem_filter] at hn
          rw [← henumv.2]
          exact List.mem_toFinset.mpr hn.1
        have haccv : ∀ u ∈ acc ++ [v], u ∈ g.verts ∧ g.Reaches start u := by
          intro u hu
          rcases List.mem_append.mp hu with h | h
          · exact hacc u h
          · rw [List.mem_singleton.mp h]
            exact hwork v (List.mem_cons_self v rest)
        have hworkv : ∀ u ∈ combine fresh rest, u ∈ g.verts ∧ g.Reaches start u := by
          intro u hu
          rcases (hComb.1 fresh rest u).mp hu with h | h
          · have hadj := hfreshadj u h
            have hp := Graph.mem_adjOf.mp hadj
            refine ⟨(hInv _ hp).2, ?_⟩
            exact Relation.ReflTransGen.tail (hwork v (List.mem_cons_self v rest)).2 hp
          · exact hwork u (List.mem_cons_of_mem v h)
        have hclosedv : ∀ u ∈ acc ++ [v], ∀ n ∈ g.adjOf u,
            n ∈ acc ++ [v] ∨ n ∈ combine fresh rest := by
          intro u hu n hn
          rcases List.mem_append.mp hu with h | h
          · rcases hclosed u h n hn with h' | h'
            · exact Or.inl (List.mem_append_left _ h')
            · rcases List.mem_cons.mp h' with h' | h'
              · exact Or.inl (List.mem_append_right _ (by simp [h']))
              · exact Or.inr ((hComb.1 fresh rest n).mpr (Or.inr h'))
          · rw [List.mem_singleton.mp h] at hn
            by_cases hmem : n ∈ acc ++ [v]
            · exact Or.inl hmem
            · refine Or.inr ((hComb.1 fresh rest n).mpr (Or.inl ?_))
              rw [hfresh, List.mem_filter]
              refine ⟨?_, by simpa using hmem⟩
              rw [← List.mem_toFinset, henumv.2]
              exact hn
        have hnodupv : (acc ++ [v]).Nodup := by
          rw [List.nodup_append]
          refine ⟨hnodup, List.nodup_singleton v, ?_⟩
          intro a ha hb
          rw [List.mem_singleton.mp hb] at ha
          exact hv ha
        have hdiscv : DiscList g (acc ++ [v]) := by
          refine DiscList.append_singleton hdisc ?_
          rcases hdiscw v (List.mem_cons_self v rest) with h | h | h
          · exact absurd h hv
          · exact Or.inl h.1
          · exact Or.inr h
        have hdiscwv : ∀ u ∈ combine fresh rest,
            u ∈ acc ++ [v] ∨ (acc ++ [v] = [] ∧ u = start) ∨
              ∃ y ∈ acc ++ [v], (y, u) ∈ g.pairs := by
          intro u hu
          rcases (hComb.1 fresh rest u).mp hu with h | h
          · right; right
            exact ⟨v, List.mem_append_right _ (by simp),
              Graph.mem_adjOf.mp (hfreshadj u h)⟩
          · rcases hdiscw u (List.mem_cons_of_mem v h) with h' | h' | h'
            · exact Or.inl (List.mem_append_left _ h')
            · -- `acc = []` and `u = start`; but then `v = start` too
              rcases hdiscw v (List.mem_cons_self v rest) with h'' | h'' | h''
              · exact absurd h'' hv
              · left
                rw [h'.2, ← h''.2]
                exact List.mem_append_right _ (by simp)
              · obtain ⟨y, hy, _⟩ := h''
                rw [h'.1] at hy
                cases hy
            · right; right
              obtain ⟨y, hy, hp⟩ := h'
              exact ⟨y, List.mem_append_left _ hy, hp⟩
        have hfuelv : searchMeasure g (acc ++ [v]) (combine fresh rest) + 1 ≤ fuel := by
          unfold searchMeasure at hfuel ⊢
          have hlen : (combine fresh rest).length = fresh.length + rest.length :=
            hComb.2 fresh rest
          have hfle : fresh.length ≤ (g.adjOf v).card := by
            have hnd : fresh.Nodup := (henumv.1).filter _
            have hsub : fresh.toFinset ⊆ g.adjOf v := by
              intro n hn
              exact hfreshadj n (List.mem_toFinset.mp hn)
            calc fresh.length = fresh.toFinset.card := (List.toFinset_card_of_nodup hnd).symm
              _ ≤ (g.adjOf v).card := Finset.card_le_card hsub
          have hsetv : (acc ++ [v]).toFinset = insert v acc.toFinset := by
            rw [List.toFinset_append]
            ext u
            simp only [Finset.mem_union, Finset.mem_insert, List.toFinset_cons,
              List.toFinset_nil, insert_emptyc_eq, Finset.mem_singleton]
            tauto
          have hvdiff : v ∈ g.verts \ acc.toFinset := by
            rw [Finset.mem_sdiff]
            exact ⟨hvverts, by simpa using hv⟩
          have hsum : ((g.verts \ acc.toFinset).erase v).sum (fun u => (g.adjOf u).card + 1)
              + ((g.adjOf v).card + 1)
              = (g.verts \ acc.toFinset).sum (fun u => (g.adjOf u).card + 1) :=
            Finset.sum_erase_add _ _ hvdiff
          have hdiff : g.verts \ (acc ++ [v]).toFinset = (g.verts \ acc.toFinset).erase v := by
            rw [hsetv]
            ext u
            simp only [Finset.mem_sdiff, Finset.mem_insert, Finset.mem_erase]
            tauto
          rw [hdiff, hlen]
          simp only [List.length_cons] at hfuel
          omega
        obtain ⟨res, hres, hpre, hnd, hmem, hwk, hcl, hdl⟩ :=
          ih (acc ++ [v]) (combine fresh rest) haccv hworkv hclosedv hnodupv
            hdiscv hdiscwv hfuelv
        refine ⟨res, hres, ?_, hnd, hmem, ?_, hcl, hdl⟩
        · exact (List.prefix_append acc [v]).trans hpre
        · intro u hu
          rcases List.mem_cons.mp hu with h | h
          · exact hpre.subset (List.mem_append_right _ (by simp [h]))
          · rcases (hComb.1 fresh rest u) with hiff
            by_cases hu' : u ∈ acc ++ [v]
            · exact hpre.subset hu'
            · exact hwk u (hiff.mpr (Or.inr h))

/-- Anything reachable from a member of an adjacency-closed set is a member. -/
theorem reaches_mem_of_closed {g : Graph V} {res : List V} {start v : V}
    (hstart : start ∈ res) (hcl : ∀ u ∈ res, ∀ n ∈ g.adjOf u, n ∈ res)
    (h : g.Reaches start v) : v ∈ res := by
  induction h with
  | refl => exact hstart
  | tail _ hbc ih => exact hcl _ ih _ (Graph.mem_adjOf.mpr hbc)

/-- Full specification of one traversal run on a well-formed graph with a
registered start vertex. -/
theorem searchRun_spec {g : Graph V} {enum : V → List V}
    {combine : List V → List V → List V} {start : V}
    (hInv : g.Invariant) (hEnum : enumOk g enum) (hComb : CombineOk combine)
    (hstart : start ∈ g.verts) :
    ∃ res, searchAux g enum combine (searchFuel g [start]) [] [start] = .ok res ∧
      res.head? = some start ∧ res.Nodup ∧
      (∀ v, v ∈ res ↔ g.Reaches start v) ∧ DiscList g res := by
  have hfu : searchFuel g [start] =
      (1 + (g.verts.sum (fun v => (g.adjOf v).card + 1))) + 1 := by
    simp [searchFuel]
  rw [hfu, searchAux]
  rw [if_neg (by simp), if_pos hstart]
  set fresh := (enum start).filter (fun n => n ∉ ([] : List V) ++ [start]) with hfresh
  have henums := hEnum start hstart
  have hfreshadj : ∀ n ∈ fresh, n ∈ g.adjOf start := by
    intro n hn
    rw [hfresh, List.mem_filter] at hn
    rw [← henums.2]
    exact List.mem_toFinset.mpr hn.1
  have hfle : fresh.length ≤ (g.adjOf start).card := by
    have hnd : fresh.Nodup := (henums.1).filter _
    have hsub : fresh.toFinset ⊆ g.adjOf start := fun n hn =>
      hfreshadj n (List.mem_toFinset.mp hn)
    calc fresh.length = fresh.toFinset.card := (List.toFinset_card_of_nodup hnd).symm
      _ ≤ (g.adjOf start).card := Finset.card_le_card hsub
  have hsum : (g.verts.erase start).sum (fun u => (g.adjOf u).card + 1)
        + ((g.adjOf start).card + 1)
      = g.verts.sum (fun u => (g.adjOf u).card + 1) :=
    Finset.sum_erase_add _ _ hstart
  have hdiff : g.verts \ ([start] : List V).toFinset = g.verts.erase start := by
    ext u
    simp only [Finset.mem_sdiff, Finset.mem_erase, List.toFinset_cons, List.toFinset_nil,
      insert_emptyc_eq, Finset.mem_singleton]
    tauto
  obtain ⟨res, hres, hpre, hnd, hmem, hwk, hcl, hdl⟩ :=
    @searchAux_spec V _ g enum combine start hInv hEnum hComb
      (1 + (g.verts.sum (fun v => (g.adjOf v).card + 1))) [start] (combine fresh [])
      (by
        intro u hu
        rw [List.mem_singleton.mp hu]
        exact ⟨hstart, Relation.ReflTransGen.refl⟩)
      (by
        intro u hu
        rcases (hComb.1 fresh [] u).mp hu with h | h
        · have hadj := hfreshadj u h
          have hp := Graph.mem_adjOf.mp hadj
          exact ⟨(hInv _ hp).2, Relation.ReflTransGen.tail Relation.ReflTransGen.refl hp⟩
        · cases h)
      (by
        intro u hu n hn
        rw [List.mem_singleton.mp hu] at hn
        by_cases h : n = start
        · exact Or.inl (by simp [h])
        · refine Or.inr ((hComb.1 fresh [] n).mpr (Or.inl ?_))
          rw [hfresh, List.mem_filter]
          refine ⟨?_, by simpa using h⟩
          rw [← List.mem_toFinset, henums.2]
          exact hn)
      (List.nodup_singleton start)
      (by
        intro p x s hsplit
        left
        cases p with
        | nil => rfl
        | cons b bs =>
          rw [List.cons_append] at hsplit
          injection hsplit with h1 h2
          exact absurd h2.symm (by simp))
      (by
        intro u hu
        right; right
        refine ⟨start, by simp, ?_⟩
        rcases (hComb.1 fresh [] u).mp hu with h | h
        · exact Graph.mem_adjOf.mp (hfreshadj u h)
        · cases h)
      (by
        unfold searchMeasure
        rw [hdiff]
        have hlen := hComb.2 fresh ([] : List V)
        simp only [List.length_nil] at hlen
        omega)
  have hstartres : start ∈ res := hpre.subset (by simp)
  refine ⟨res, hres, ?_, hnd, ?_, hdl⟩
  · obtain ⟨t, ht⟩ := hpre
    rw [← ht]
    rfl
  · intro v
    constructor
    · intro hv
      exact (hmem v hv).2
    · intro hv
      exact reaches_mem_of_closed hstartres hcl hv


/-! ### C5: the traversal contract, C6: the adjacency invariant -/

/-- The graph used to refute C5 and C6 as stated: a *non-bidirectional*
graph on vertices `{0, 1}` with the single directed edge `(0, 1)`. -/
def c56BuiltGraph : Graph Nat :=
  ⟨{0, 1}, {(0, 1)}, false⟩

/-- The state after `remove_vertex(1)`: vertex `1` is gone but the pair
`(0, 1)` survives, dangling. -/
def c56DanglingGraph : Graph Nat :=
  ⟨{0}, {(0, 1)}, false⟩

/-- Adjacency-set iteration order for the dangling graph. -/
def c56Enum : Nat → List Nat := fun v => if v = 0 then [1] else []

/-- Adjacency-set iteration order for the two-vertex bidirectional graph. -/
def c5WitEnum : Nat → List Nat := fun v => if v = 0 then [1] else if v = 1 then [0] else []

/-- **C5 (amended).** On graphs satisfying the adjacency invariant
(every referenced vertex registered), `breadth_first_search` and
`depth_first_search` fail with an invalid-vertex error iff the start
vertex is unregistered; otherwise they terminate without error, calling
`visit_fn` exactly once on every vertex reachable from the start and on
no other vertex, in discovery order (the start first, and every later
visit adjacent to an earlier one).  Without the invariant the error can
also occur for a registered start (see the counterexample). -/
theorem traversals_visit_reachable_once (g : Graph V) (enum : V → List V)
    (start : V) (hInv : g.Invariant) (hEnum : enumOk g enum) :
    ((∃ e, g.breadth_first_search enum start = .error e) ↔ start ∉ g.verts) ∧
    ((∃ e, g.depth_first_search enum start = .error e) ↔ start ∉ g.verts) ∧
    (start ∈ g.verts →
      (∃ res, g.breadth_first_search enum start = .ok res ∧ res.head? = some start ∧
        res.Nodup ∧ (∀ v, v ∈ res ↔ g.Reaches start v) ∧ DiscList g res) ∧
      (∃ res, g.depth_first_search enum start = .ok res ∧ res.head? = some start ∧
        res.Nodup ∧ (∀ v, v ∈ res ↔ g.Reaches start v) ∧ DiscList g res)) := by
  have hbfs : start ∈ g.verts →
      ∃ res, g.breadth_first_search enum start = .ok res ∧ res.head? = some start ∧
        res.Nodup ∧ (∀ v, v ∈ res ↔ g.Reaches start v) ∧ DiscList g res := by
    intro hstart
    obtain ⟨res, hres, h1, h2, h3, h4⟩ := searchRun_spec hInv hEnum bfsCombine_ok hstart
    refine ⟨res, ?_, h1, h2, h3, h4⟩
    unfold Graph.breadth_first_search Graph.ensure
    rw [if_pos hstart]
    exact hres
  have hdfs : start ∈ g.verts →
      ∃ res, g.depth_first_search enum start = .ok res ∧ res.head? = some start ∧
        res.Nodup ∧ (∀ v, v ∈ res ↔ g.Reaches start v) ∧ DiscList g res := by
    intro hstart
    obtain ⟨res, hres, h1, h2, h3, h4⟩ := searchRun_spec hInv hEnum dfsCombine_ok hstart
    refine ⟨res, ?_, h1, h2, h3, h4⟩
    unfold Graph.depth_first_search Graph.ensure
    rw [if_pos hstart]
    exact hres
  refine ⟨⟨?_, ?_⟩, ⟨?_, ?_⟩, fun hstart => ⟨hbfs hstart, hdfs hstart⟩⟩
  · intro ⟨e, he⟩
    by_contra hstart
    obtain ⟨res, hres, -⟩ := hbfs hstart
    rw [hres] at he
    cases he
  · intro hstart
    refine ⟨"Invalid vertex", ?_⟩
    unfold Graph.breadth_first_search Graph.ensure
    rw [if_neg hstart]
    rfl
  · intro ⟨e, he⟩
    by_contra hstart
    obtain ⟨res, hres, -⟩ := hdfs hstart
    rw [hres] at he
    cases he
  · intro hstart
    refine ⟨"Invalid vertex", ?_⟩
    unfold Graph.depth_first_search Graph.ensure
    rw [if_neg hstart]
    rfl

/-- **C5 (counterexample).** On the constructible non-bidirectional graph
`({0,1}, 0→1)` after `remove_vertex(1)`, the start vertex `0` is still
registered yet both traversals fail with an invalid-vertex error (after
visiting the unregistered vertex `1`): the claimed "fails iff the start
vertex is unregistered" is false as stated. -/
theorem traversals_fail_despite_registered_start :
    Graph.add_edge (((Graph.empty false).add_vertex 0).add_vertex 1) 0 1
        = .ok c56BuiltGraph ∧
    Graph.remove_vertex c56BuiltGraph 1 = .ok c56DanglingGraph ∧
    0 ∈ c56DanglingGraph.verts ∧
    enumOk c56DanglingGraph c56Enum ∧
    c56DanglingGraph.breadth_first_search c56Enum 0 = .error "Invalid vertex" ∧
    c56DanglingGraph.depth_first_search c56Enum 0 = .error "Invalid vertex" := by
  refine ⟨by decide, by decide, by decide, by decide, ?_, ?_⟩ <;> decide

/-- Witness for C5 (amended) at a concrete two-vertex bidirectional graph. -/
theorem traversals_visit_reachable_once_witness :
    (Graph.Invariant ⟨{0, 1}, {(0, 1), (1, 0)}, true⟩ ∧
      enumOk (V := Nat) ⟨{0, 1}, {(0, 1), (1, 0)}, true⟩ c5WitEnum ∧
      (0 : Nat) ∈ (Graph.verts ⟨{0, 1}, {(0, 1), (1, 0)}, true⟩)) ∧
    ((∃ res, Graph.breadth_first_search ⟨{0, 1}, {(0, 1), (1, 0)}, true⟩ c5WitEnum 0
        = .ok res ∧ res.head? = some 0 ∧ res.Nodup ∧
        (∀ v, v ∈ res ↔ Graph.Reaches ⟨{0, 1}, {(0, 1), (1, 0)}, true⟩ 0 v) ∧
        DiscList ⟨{0, 1}, {(0, 1), (1, 0)}, true⟩ res) ∧
     (∃ res, Graph.depth_first_search ⟨{0, 1}, {(0, 1), (1, 0)}, true⟩ c5WitEnum 0
        = .ok res ∧ res.head? = some 0 ∧ res.Nodup ∧
        (∀ v, v ∈ res ↔ Graph.Reaches ⟨{0, 1}, {(0, 1), (1, 0)}, true⟩ 0 v) ∧
        DiscList ⟨{0, 1}, {(0, 1), (1, 0)}, true⟩ res)) :=
  ⟨⟨by decide, by decide, by decide⟩,
    (traversals_visit_reachable_once ⟨{0, 1}, {(0, 1), (1, 0)}, true⟩ c5WitEnum 0
      (by decide) (by decide)).2.2 (by decide)⟩

/-- **C6 (amended).** `add_vertex`, `add_edge` and `remove_edge` preserve
the adjacency invariant on every graph; `remove_vertex` preserves it on
bidirectional graphs (whose adjacency relation is symmetric, a property
itself preserved by every operation).  On non-bidirectional graphs
`remove_vertex` can leave a dangling reference (see the counterexample),
so the claim's "for both bidirectional and non-bidirectional graphs" is
false as stated. -/
theorem graph_ops_preserve_invariant :
    (∀ (g : Graph V) (v : V), g.Invariant → (g.add_vertex v).Invariant) ∧
    (∀ (g g' : Graph V) (a b : V), g.Invariant → g.add_edge a b = .ok g' →
      g'.Invariant) ∧
    (∀ (g g' : Graph V) (a b : V), g.Invariant → g.remove_edge a b = .ok g' →
      g'.Invariant) ∧
    (∀ (g g' : Graph V) (v : V), g.Invariant → g.Symm →
      g.remove_vertex v = .ok g' → g'.Invariant ∧ g'.Symm) ∧
    (∀ (g : Graph V) (v : V), g.Symm → (g.add_vertex v).Symm) ∧
    (∀ (g g' : Graph V) (a b : V), g.bidirectional = true → g.Symm →
      g.add_edge a b = .ok g' → g'.Symm) ∧
    (∀ (g g' : Graph V) (a b : V), g.bidirectional = true → g.Symm →
      g.remove_edge a b = .ok g' → g'.Symm) := by
  refine ⟨?_, ?_, ?_, ?_, ?_, ?_, ?_⟩
  · -- add_vertex / Invariant
    intro g v hInv e he
    unfold Graph.add_vertex at he ⊢
    by_cases h : v ∈ g.verts
    · rw [if_pos h] at he ⊢
      exact hInv e he
    · rw [if_neg h] at he ⊢
      obtain ⟨h1, h2⟩ := hInv e he
      exact ⟨Finset.mem_insert_of_mem h1, Finset.mem_insert_of_mem h2⟩
  · -- add_edge / Invariant
    intro g g' a b hInv hok
    unfold Graph.add_edge at hok
    split_ifs at hok with ha hb hbi <;> cases hok <;> intro e he <;> simp only at he ⊢
    · rcases Finset.mem_insert.mp he with h | h
      · rw [h]
        exact ⟨hb, ha⟩
      · rcases Finset.mem_insert.mp h with h' | h'
        · rw [h']
          exact ⟨ha, hb⟩
        · exact hInv e h'
    · rcases Finset.mem_insert.mp he with h | h
      · rw [h]
        exact ⟨ha, hb⟩
      · exact hInv e h
  · -- remove_edge / Invariant
    intro g g' a b hInv hok
    unfold Graph.remove_edge at hok
    split_ifs at hok <;> cases hok <;> intro e he <;> simp only at he ⊢
    · exact hInv e (Finset.mem_of_mem_erase (Finset.mem_of_mem_erase he))
    · exact hInv e (Finset.mem_of_mem_erase he)
  · -- remove_vertex on a symmetric graph
    intro g g' v hInv hSymm hok
    unfold Graph.remove_vertex at hok
    split_ifs at hok with hv hkey
    cases hok
    constructor
    · intro e he
      simp only [Finset.mem_filter] at he
      obtain ⟨he, hc1, hc2⟩ := he
      obtain ⟨h1, h2⟩ := hInv e he
      have hee : (e.1, e.2) = e := rfl
      have he2 : e.2 ≠ v := by
        intro h
        apply hc2
        refine ⟨h, ?_⟩
        have hsy := hSymm e.1 e.2 (by rwa [hee])
        rwa [h] at hsy
      simp only
      exact ⟨Finset.mem_erase_of_ne_of_mem hc1 h1, Finset.mem_erase_of_ne_of_mem he2 h2⟩
    · intro a b hab
      simp only [Finset.mem_filter] at hab ⊢
      obtain ⟨hab, hc1, hc2⟩ := hab
      have hb : ¬ b = v := by
        intro h
        apply hc2
        refine ⟨h, ?_⟩
        have hsy := hSymm a b hab
        rwa [h] at hsy
      refine ⟨hSymm a b hab, hb, ?_⟩
      intro ⟨h, _⟩
      exact hc1 h
  · -- add_vertex / Symm
    intro g v hSymm a b hab
    unfold Graph.add_vertex at hab ⊢
    split_ifs at hab ⊢ <;> exact hSymm a b hab
  · -- add_edge on a bidirectional graph / Symm
    intro g g' a b hbi hSymm hok
    unfold Graph.add_edge at hok
    split_ifs at hok
    cases hok
    intro x y hxy
    simp only [hbi, if_pos] at hxy ⊢
    rcases Finset.mem_insert.mp hxy with h | h
    · cases h
      exact Finset.mem_insert_of_mem (Finset.mem_insert_self _ _)
    · rcases Finset.mem_insert.mp h with h' | h'
      · cases h'
        exact Finset.mem_insert_self _ _
      · exact Finset.mem_insert_of_mem (Finset.mem_insert_of_mem (hSymm x y h'))
  · -- remove_edge on a bidirectional graph / Symm
    intro g g' a b hbi hSymm hok
    unfold Graph.remove_edge at hok
    rw [hbi] at hok
    split_ifs at hok with ha hb hab hba
    cases hok
    intro x y hxy
    simp only at hxy ⊢
    have hxy' := Finset.mem_of_mem_erase (Finset.mem_of_mem_erase hxy)
    have hyx := hSymm x y hxy'
    have hne1 : ¬ (x, y) = (b, a) := (Finset.mem_erase.mp hxy).1
    have hne2 : ¬ (x, y) = (a, b) := (Finset.mem_erase.mp (Finset.mem_of_mem_erase hxy)).1
    have hne3 : ¬ (y, x) = (b, a) := by
      intro h
      apply hne2
      have h1 : y = b := congrArg Prod.fst h
      have h2 : x = a := congrArg Prod.snd h
      rw [h1, h2]
    have hne4 : ¬ (y, x) = (a, b) := by
      intro h
      apply hne1
      have h1 : y = a := congrArg Prod.fst h
      have h2 : x = b := congrArg Prod.snd h
      rw [h1, h2]
    exact Finset.mem_erase_of_ne_of_mem hne3 (Finset.mem_erase_of_ne_of_mem hne4 hyx)
    exact absurd rfl hba

/-- **C6 (counterexample).** On the constructible non-bidirectional graph
with vertices `{0, 1}` and the directed edge `0 → 1`, `remove_vertex(1)`
succeeds but leaves the pair `(0, 1)` in `0`'s adjacency set while `1` is
no longer registered: the invariant is not preserved. -/
theorem remove_vertex_leaves_dangling_reference :
    Graph.add_edge (((Graph.empty false).add_vertex 0).add_vertex 1) 0 1
        = .ok c56BuiltGraph ∧
    c56BuiltGraph.Invariant ∧
    Graph.remove_vertex c56BuiltGraph 1 = .ok c56DanglingGraph ∧
    (0, 1) ∈ c56DanglingGraph.pairs ∧
    (1 : Nat) ∉ c56DanglingGraph.verts := by
  refine ⟨by decide, by decide, by decide, by decide, by decide⟩

/-- Witness for C6 (amended): `remove_vertex` on a concrete bidirectional
two-vertex graph preserves the invariant and symmetry. -/
theorem graph_ops_preserve_invariant_witness :
    (Graph.Invariant ⟨{0, 1}, {(0, 1), (1, 0)}, true⟩ ∧
      Graph.Symm ⟨{0, 1}, {(0, 1), (1, 0)}, true⟩ ∧
      Graph.remove_vertex ⟨{0, 1}, {(0, 1), (1, 0)}, true⟩ 1 = .ok ⟨{0}, ∅, true⟩) ∧
    (Graph.Invariant (⟨{0}, ∅, true⟩ : Graph Nat) ∧
      Graph.Symm (⟨{0}, ∅, true⟩ : Graph Nat)) :=
  ⟨⟨by decide, by decide, by decide⟩,
    (graph_ops_preserve_invariant (V := Nat)).2.2.2.1
      ⟨{0, 1}, {(0, 1), (1, 0)}, true⟩ ⟨{0}, ∅, true⟩ 1
      (by decide) (by decide) (by decide)⟩

/-! ## `EventDispatcher` (`labyrinth/utils/event.py`) -/

/-- A listener callback; raising an exception is modelled as returning
`Except.error`. -/
structure EventDispatcher (A : Type) where
  event_listener : Option (A → Except String Unit)

/-- The outcome of one dispatch, observable by the caller and in the
visit log: whether the listener ran, and which exception (if any) was
caught by the `try/except` block. -/
structure DispatchResult where
  invoked : Bool
  caught : Option String
deriving DecidableEq, Repr

/-- `EventDispatcher.on_state_changed(state)`: if a listener is
registered, call it; any exception it raises is caught and printed.  The
outer `Except` is what the *caller* of `on_state_changed` sees; the
`try/except` of the source shows up as the `.error e => .ok _` branch. -/
def EventDispatcher.on_state_changed {A : Type} (d : EventDispatcher A) (state : A) :
    Except String DispatchResult :=
  match d.event_listener with
  | none => .ok ⟨false, none⟩
  | some listener =>
      match listener state with
      | .ok _ => .ok ⟨true, none⟩
      | .error e => .ok ⟨true, some e⟩

/-- **C8.** `on_state_changed` invokes the registered listener exactly
when one is registered, and always returns normally to its caller — a
listener exception is caught (and recorded), never propagated, so
generation is never aborted by a listener failure. -/
theorem on_state_changed_contains_listener_failure {A : Type}
    (d : EventDispatcher A) (state : A) :
    ∃ r : DispatchResult, d.on_state_changed state = .ok r ∧
      (r.invoked = true ↔ d.event_listener.isSome = true) ∧
      (∀ e, d.on_state_changed state ≠ .error e) := by
  cases hl : d.event_listener with
  | none =>
    refine ⟨⟨false, none⟩, ?_, by simp [hl], ?_⟩
    · unfold EventDispatcher.on_state_changed
      rw [hl]
    · intro e h
      unfold EventDispatcher.on_state_changed at h
      rw [hl] at h
      cases h
  | some listener =>
    cases hr : listener state with
    | ok u =>
      refine ⟨⟨true, none⟩, ?_, by simp [hl], ?_⟩
      · unfold EventDispatcher.on_state_changed
        rw [hl]
        simp only [hr]
      · intro e h
        unfold EventDispatcher.on_state_changed at h
        rw [hl] at h
        simp only [hr] at h
        cases h
    | error e0 =>
      refine ⟨⟨true, some e0⟩, ?_, by simp [hl], ?_⟩
      · unfold EventDispatcher.on_state_changed
        rw [hl]
        simp only [hr]
      · intro e h
        unfold EventDispatcher.on_state_changed at h
        rw [hl] at h
        simp only [hr] at h
        cases h

/-! ## `MazeUpdateType` and `MazeUpdate` (`labyrinth/generate.py`) -/

/-- `MazeUpdateType`: the enumeration of maze update event types as it
appears in the source — `WALL_REMOVED = 1` and `CELL_MARKED = 2` only. -/
inductive MazeUpdateType : Type
  | WALL_REMOVED
  | CELL_MARKED
deriving DecidableEq, Repr, Fintype

/-- The `MazeUpdate` dataclass: an update type, a start cell, an optional
end cell and an optional set of new frontier cells. -/
structure MazeUpdate where
  type : MazeUpdateType
  start_cell : Cell
  end_cell : Option Cell := none
  new_frontier_cells : Option (Finset Cell) := none
deriving DecidableEq

/-- **C4 (counterexample).** `MazeUpdateType` has exactly two cases, not
four: there is no `START_CELL_CHOSEN` or `EDGE_REMOVED` variant, so the
event type cannot be put in bijection with four distinct cases. -/
theorem maze_update_type_not_four_cases :
    Fintype.card MazeUpdateType = 2 ∧ ¬ Nonempty (MazeUpdateType ≃ Fin 4) := by
  constructor
  · decide
  · intro ⟨e⟩
    have := Fintype.card_congr e
    simp [Fintype.card_fin] at this
    have h2 : Fintype.card MazeUpdateType = 2 := by decide
    omega

/-- **C4 (amended).** The event type delivered to listeners is a tagged
variant with exactly the two cases `WALL_REMOVED(start, end)` and
`CELL_MARKED(cell, new_frontier)`; every update value carries one of
these two tags. -/
theorem maze_update_type_two_cases :
    Fintype.card MazeUpdateType = 2 ∧
    (∀ u : MazeUpdate, u.type = .WALL_REMOVED ∨ u.type = .CELL_MARKED) := by
  constructor
  · decide
  · intro u
    cases h : u.type
    · exact Or.inl rfl
    · exact Or.inr rfl

/-! ## `TreeSet` (`labyrinth/utils/collections.py`)

A `TreeSet` node holds a mutable `parent` reference (`None` for a root).
The aggregate state of all nodes is a parent map `V → Option V` over a
finite node type.  `TreeSet.root` recurses along parent links with no
termination guard, so it is modelled with fuel: `root_fuel` applications
suffice exactly when the parent chain terminates. -/

/-- The aggregate `parent` state of a family of `TreeSet` nodes. -/
abbrev ParentMap (V : Type) : Type := V → Option V

/-- One parent link as a step relation. -/
def pstep (p : ParentMap V) (a b : V) : Prop := p a = some b

/-- `k` steps along parent links. -/
def pIter (p : ParentMap V) : Nat → V → Option V
  | 0, x => some x
  | k + 1, x =>
      match p x with
      | none => none
      | some y => pIter p k y

theorem pIter_succ (p : ParentMap V) (k : Nat) (x : V) :
    pIter p (k + 1) x = match p x with | none => none | some y => pIter p k y := rfl

/-- `TreeSet.root`, fuelled: follow `parent` until a root is reached. -/
def rootAux (p : ParentMap V) : Nat → V → Option V
  | 0, _ => none
  | f + 1, x =>
      match p x with
      | none => some x
      | some y => rootAux p f y

/-- `TreeSet.root` terminates on `x` (the source recursion reaches a
parentless node). -/
def TerminatesFrom (p : ParentMap V) (x : V) : Prop :=
  ∃ f r, rootAux p f x = some r

/-- No node reachable from `x` lies on a parent-link cycle. -/
def AcyclicFrom (p : ParentMap V) (x : V) : Prop :=
  ∀ c, Relation.ReflTransGen (pstep p) x c → ¬ Relation.TransGen (pstep p) c c

theorem pIter_add (p : ParentMap V) (m n : Nat) (x : V) :
    pIter p (m + n) x = (pIter p m x).bind (fun y => pIter p n y) := by
  induction m generalizing x with
  | zero => simp [pIter]
  | succ m ih =>
    have harith : m + 1 + n = (m + n) + 1 := by omega
    rw [harith]
    cases hx : p x with
    | none =>
      have e1 : pIter p ((m + n) + 1) x = none := by
        rw [pIter_succ, hx]
      have e2 : pIter p (m + 1) x = none := by
        rw [pIter_succ, hx]
      rw [e1, e2]
      rfl
    | some y =>
      have e1 : pIter p ((m + n) + 1) x = pIter p (m + n) y := by
        rw [pIter_succ, hx]
      have e2 : pIter p (m + 1) x = pIter p m y := by
        rw [pIter_succ, hx]
      rw [e1, e2, ih y]

theorem pIter_none_mono {p : ParentMap V} {m m' : Nat} {x : V}
    (h : pIter p m x = none) (hle : m ≤ m') : pIter p m' x = none := by
  obtain ⟨k, rfl⟩ := Nat.exists_eq_add_of_le hle
  rw [pIter_add, h]
  rfl

theorem pIter_some_of_le {p : ParentMap V} {m m' : Nat} {x y : V}
    (h : pIter p m' x = some y) (hle : m ≤ m') : (pIter p m x).isSome := by
  cases hm : pIter p m x with
  | none => rw [pIter_none_mono hm hle] at h; cases h
  | some z => rfl

theorem rootAux_some_iff {p : ParentMap V} {f : Nat} {x r : V} :
    rootAux p f x = some r ↔ ∃ l < f, pIter p l x = some r ∧ p r = none := by
  induction f generalizing x with
  | zero => simp [rootAux]
  | succ f ih =>
    constructor
    · intro h
      unfold rootAux at h
      split at h
      · rename_i hx
        cases h
        exact ⟨0, by omega, rfl, hx⟩
      · rename_i y hx
        obtain ⟨l, hl, hil, hr⟩ := ih.mp h
        refine ⟨l + 1, by omega, ?_, hr⟩
        unfold pIter
        rw [hx]
        exact hil
    · intro ⟨l, hl, hil, hr⟩
      unfold rootAux
      split
      · rename_i hx
        cases l with
        | zero =>
          cases hil
          rfl
        | succ l =>
          unfold pIter at hil
          rw [hx] at hil
          cases hil
      · rename_i y hx
        cases l with
        | zero =>
          cases hil
          rw [hx] at hr
          cases hr
        | succ l =>
          unfold pIter at hil
          rw [hx] at hil
          exact ih.mpr ⟨l, by omega, hil, hr⟩

theorem rootAux_none_isSome {p : ParentMap V} {f : Nat} {x : V}
    (h : rootAux p f x = none) : (pIter p f x).isSome := by
  induction f generalizing x with
  | zero => rfl
  | succ f ih =>
    unfold rootAux at h
    split at h
    · cases h
    · rename_i y hx
      unfold pIter
      rw [hx]
      exact ih h

theorem pIter_reflTransGen {p : ParentMap V} {k : Nat} {x y : V}
    (h : pIter p k x = some y) : Relation.ReflTransGen (pstep p) x y := by
  induction k generalizing x with
  | zero =>
    cases h
    exact Relation.ReflTransGen.refl
  | succ k ih =>
    unfold pIter at h
    split at h
    · cases h
    · rename_i z hx
      exact Relation.ReflTransGen.head hx (ih h)

theorem pIter_transGen {p : ParentMap V} {k : Nat} {x y : V}
    (h : pIter p k x = some y) (hk : 0 < k) : Relation.TransGen (pstep p) x y := by
  cases k with
  | zero => omega
  | succ k =>
    unfold pIter at h
    split at h
    · cases h
    · rename_i z hx
      exact Relation.TransGen.head' hx (pIter_reflTransGen h)

theorem reflTransGen_pIter {p : ParentMap V} {x y : V}
    (h : Relation.ReflTransGen (pstep p) x y) : ∃ k, pIter p k x = some y := by
  induction h with
  | refl => exact ⟨0, rfl⟩
  | tail hxb hbc ih =>
    obtain ⟨k, hk⟩ := ih
    refine ⟨k + 1, ?_⟩
    rw [pIter_add p k 1, hk]
    have hbc' : p _ = some _ := hbc
    simp only [Option.some_bind]
    rw [pIter_succ, hbc']
    rfl

theorem transGen_pIter {p : ParentMap V} {x y : V}
    (h : Relation.TransGen (pstep p) x y) : ∃ k, 0 < k ∧ pIter p k x = some y := by
  induction h with
  | single hxb =>
    refine ⟨1, by omega, ?_⟩
    have hxb' : p _ = some _ := hxb
    rw [pIter_succ, hxb']
    rfl
  | tail hxb hbc ih =>
    obtain ⟨k, hk, hik⟩ := ih
    refine ⟨k + 1, by omega, ?_⟩
    rw [pIter_add p k 1, hik]
    have hbc' : p _ = some _ := hbc
    simp only [Option.some_bind]
    rw [pIter_succ, hbc']
    rfl

theorem pIter_cycle_pump {p : ParentMap V} {m : Nat} {c : V}
    (h : pIter p m c = some c) (q : Nat) : pIter p (q * m) c = some c := by
  induction q with
  | zero =>
    simp only [Nat.zero_mul]
    rfl
  | succ q ih =>
    have harith : (q + 1) * m = q * m + m := by ring
    rw [harith, pIter_add, ih]
    simp only [Option.some_bind]
    exact h

/-- Two equal points on an endless parent chain yield a reachable cycle. -/
theorem hcyclic_aux (p : ParentMap V) (x : V) (hacyc : AcyclicFrom p x)
    (hsome : ∀ f, (pIter p f x).isSome) :
    ∀ a b : Nat, a < b → (pIter p a x).getD x = (pIter p b x).getD x → False := by
  intro a b hab heq
  obtain ⟨ya, hya⟩ := Option.isSome_iff_exists.mp (hsome a)
  obtain ⟨yb, hyb⟩ := Option.isSome_iff_exists.mp (hsome b)
  rw [hya, hyb] at heq
  simp only [Option.getD_some] at heq
  subst heq
  have hsplit := pIter_add p a (b - a) x
  have hab' : a + (b - a) = b := by omega
  rw [hab', hya, hyb] at hsplit
  simp only [Option.some_bind] at hsplit
  have hcyc : Relation.TransGen (pstep p) ya ya :=
    pIter_transGen hsplit.symm (by omega)
  exact hacyc ya (pIter_reflTransGen hya) hcyc

/-- **Termination ↔ acyclicity**, the heart of C10: the source recursion
in `TreeSet.root` reaches a root exactly when no parent-link cycle is
reachable. -/
theorem terminates_iff_acyclic [Fintype V] (p : ParentMap V) (x : V) :
    TerminatesFrom p x ↔ AcyclicFrom p x := by
  constructor
  · intro ⟨f, r, hroot⟩ c hxc hcyc
    obtain ⟨l, _, hil, hr⟩ := rootAux_some_iff.mp hroot
    obtain ⟨k, hk⟩ := reflTransGen_pIter hxc
    obtain ⟨m, hm, him⟩ := transGen_pIter hcyc
    have hnone : pIter p (l + 1) x = none := by
      rw [pIter_add p l 1, hil]
      simp only [Option.some_bind]
      rw [pIter_succ, hr]
    have hkl : k ≤ l := by
      by_contra hkl
      have : pIter p k x = none := pIter_none_mono hnone (by omega)
      rw [hk] at this
      cases this
    have hbig : pIter p (k + (l + 1) * m) x = some c := by
      rw [pIter_add, hk]
      exact pIter_cycle_pump him (l + 1)
    have : pIter p (k + (l + 1) * m) x = none := by
      refine pIter_none_mono hnone ?_
      have h1 : l + 1 ≤ (l + 1) * m := Nat.le_mul_of_pos_right (l + 1) hm
      omega
    rw [hbig] at this
    cases this
  · intro hacyc
    by_contra hterm
    have hnone : ∀ f, rootAux p f x = none := by
      intro f
      cases hf : rootAux p f x with
      | none => rfl
      | some r => exact absurd ⟨f, r, hf⟩ hterm
    have hsome : ∀ f, (pIter p f x).isSome := fun f => rootAux_none_isSome (hnone f)
    have hcard : Fintype.card (Fin (Fintype.card V + 1)) > Fintype.card V := by
      simp
    obtain ⟨i, j, hij, hfij⟩ := Fintype.exists_ne_map_eq_of_card_lt
      (fun i : Fin (Fintype.card V + 1) => (pIter p i.val x).getD x) hcard
    -- make `i < j` without loss of generality
    rcases Nat.lt_or_ge i.val j.val with hlt | hge
    · exact hcyclic_aux p x hacyc hsome i.val j.val hlt hfij
    · have hlt : j.val < i.val := by
        rcases Nat.lt_or_ge j.val i.val with h | h
        · exact h
        · exact absurd (Fin.ext (by omega)) hij
      exact hcyclic_aux p x hacyc hsome j.val i.val hlt hfij.symm

theorem rootAux_succ (p : ParentMap V) (f : Nat) (x : V) :
    rootAux p (f + 1) x =
      match p x with | none => some x | some y => rootAux p f y := rfl

theorem rootAux_mono {p : ParentMap V} {f f' : Nat} {x r : V}
    (hle : f ≤ f') (h : rootAux p f x = some r) : rootAux p f' x = some r := by
  rw [rootAux_some_iff] at h ⊢
  obtain ⟨l, hl, h1, h2⟩ := h
  exact ⟨l, by omega, h1, h2⟩

theorem rootAux_unique {p : ParentMap V} {f f' : Nat} {x r r' : V}
    (h : rootAux p f x = some r) (h' : rootAux p f' x = some r') : r = r' := by
  have h1 := rootAux_mono (Nat.le_max_left f f') h
  have h2 := rootAux_mono (Nat.le_max_right f f') h'
  rw [h1] at h2
  cases h2
  rfl

/-- Fuel adequacy: when the source recursion terminates at all, fuel
equal to the number of nodes suffices (a terminating parent chain visits
pairwise-distinct nodes). -/
theorem terminates_rootAux_card [Fintype V] {p : ParentMap V} {x : V}
    (h : TerminatesFrom p x) : ∃ r, rootAux p (Fintype.card V) x = some r := by
  obtain ⟨f, r, hroot⟩ := h
  obtain ⟨l, hlf, hil, hr⟩ := rootAux_some_iff.mp hroot
  have hnone : pIter p (l + 1) x = none := by
    rw [pIter_add p l 1, hil]
    simp only [Option.some_bind]
    rw [pIter_succ, hr]
  have hdist : ∀ i j : Nat, i < j → j ≤ l → pIter p i x ≠ pIter p j x := by
    intro i j hij hjl heq
    have hi : (pIter p i x).isSome := pIter_some_of_le hil (by omega)
    obtain ⟨yi, hyi⟩ := Option.isSome_iff_exists.mp hi
    have hsplit := pIter_add p i (j - i) x
    have harith : i + (j - i) = j := by omega
    rw [harith, hyi] at hsplit
    rw [hyi] at heq
    rw [← heq] at hsplit
    simp only [Option.some_bind] at hsplit
    have hpump := pIter_cycle_pump hsplit.symm (l + 1)
    have hbig := pIter_add p i ((l + 1) * (j - i)) x
    rw [hyi] at hbig
    simp only [Option.some_bind] at hbig
    rw [hpump] at hbig
    have : pIter p (i + (l + 1) * (j - i)) x = none := by
      refine pIter_none_mono hnone ?_
      have h1 : l + 1 ≤ (l + 1) * (j - i) := Nat.le_mul_of_pos_right (l + 1) (by omega)
      omega
    rw [hbig] at this
    cases this
  have hinj : Function.Injective (fun i : Fin (l + 1) => (pIter p i.val x).getD x) := by
    intro i j hij
    by_contra hne
    have hne' : i.val ≠ j.val := fun h => hne (Fin.ext h)
    have hi_le : i.val ≤ l := Nat.lt_succ_iff.mp i.isLt
    have hj_le : j.val ≤ l := Nat.lt_succ_iff.mp j.isLt
    obtain ⟨yi, hyi⟩ := Option.isSome_iff_exists.mp
      (pIter_some_of_le hil hi_le : (pIter p i.val x).isSome)
    obtain ⟨yj, hyj⟩ := Option.isSome_iff_exists.mp
      (pIter_some_of_le hil hj_le : (pIter p j.val x).isSome)
    simp only [hyi, hyj, Option.getD_some] at hij
    have heq : pIter p i.val x = pIter p j.val x := by
      rw [hyi, hyj, hij]
    rcases Nat.lt_or_ge i.val j.val with hlt | hge
    · exact hdist i.val j.val hlt hj_le heq
    · exact hdist j.val i.val (by omega) hi_le heq.symm
  have hcard : l + 1 ≤ Fintype.card V := by
    have := Fintype.card_le_of_injective _ hinj
    simpa using this
  exact ⟨r, rootAux_some_iff.mpr ⟨l, by omega, hil, hr⟩⟩

/-- `TreeSet.root`, with the always-sufficient fuel. -/
def rootN [Fintype V] (p : ParentMap V) (x : V) : Option V :=
  rootAux p (Fintype.card V) x

/-- Every parent chain terminates (every `root` call returns). -/
def Grounded [Fintype V] (p : ParentMap V) : Prop :=
  ∀ x, (rootN p x).isSome

instance [Fintype V] (p : ParentMap V) : Decidable (Grounded p) := by
  unfold Grounded
  infer_instance

/-- `TreeSet.merge(self = a, tree = b)`: `tree.root.parent = self`.
`none` models a `root` call that never returns. -/
def TreeSet.merge [Fintype V] (p : ParentMap V) (a b : V) : Option (ParentMap V) :=
  (rootN p b).map (fun rb => Function.update p rb (some a))

/-- `TreeSet.is_connected(self = a, tree = b)`: `self.root == tree.root`.
`none` models a `root` call that never returns. -/
def TreeSet.is_connected [Fintype V] (p : ParentMap V) (a b : V) : Option Bool :=
  match rootN p a, rootN p b with
  | some ra, some rb => some (decide (ra = rb))
  | _, _ => none

theorem rootN_terminates [Fintype V] {p : ParentMap V} {x : V} :
    (rootN p x).isSome ↔ TerminatesFrom p x := by
  constructor
  · intro h
    obtain ⟨r, hr⟩ := Option.isSome_iff_exists.mp h
    exact ⟨Fintype.card V, r, hr⟩
  · intro h
    obtain ⟨r, hr⟩ := terminates_rootAux_card h
    rw [rootN, hr]
    rfl

theorem rootAux_root_parent_none {p : ParentMap V} {f : Nat} {x r : V}
    (h : rootAux p f x = some r) : p r = none := by
  obtain ⟨l, _, _, hr⟩ := rootAux_some_iff.mp h
  exact hr

/-- Updating the parent of a node that is not on the chain from `x`
leaves the root of `x` unchanged. -/
theorem rootAux_update_of_ne {p : ParentMap V} {rb : V} {c : Option V} {f : Nat} {x rx : V}
    (hrb : p rb = none) (h : rootAux p f x = some rx) (hne : rx ≠ rb) :
    rootAux (Function.update p rb c) f x = some rx := by
  induction f generalizing x with
  | zero => cases h
  | succ f ih =>
    rw [rootAux_succ] at h
    cases hx : p x with
    | none =>
      rw [hx] at h
      obtain rfl : x = rx := by injection h
      rw [rootAux_succ, Function.update_noteq hne, hx]
    | some y =>
      rw [hx] at h
      have hxrb : x ≠ rb := by
        intro hc
        rw [hc, hrb] at hx
        cases hx
      rw [rootAux_succ, Function.update_noteq hxrb, hx]
      exact ih h

/-- After `merge`, nodes whose old root was the merged root chain through
`a` to `a`'s old root. -/
theorem rootAux_extend {p : ParentMap V} {rb a ra : V} {f1 f2 : Nat} {x : V}
    (hrb : p rb = none) (h1 : rootAux p f1 x = some rb)
    (h2 : rootAux p f2 a = some ra) (hne : ra ≠ rb) :
    rootAux (Function.update p rb (some a)) (f1 + f2) x = some ra := by
  induction f1 generalizing x with
  | zero => cases h1
  | succ f1 ih =>
    rw [rootAux_succ] at h1
    cases hx : p x with
    | none =>
      rw [hx] at h1
      obtain rfl : x = rb := by injection h1
      -- `x = rb`: step to `a`, then follow `a`'s chain (which avoids `rb`)
      have hstep : Function.update p x (some a) x = some a := Function.update_same x (some a) p
      have harith : f1 + 1 + f2 = (f1 + f2) + 1 := by omega
      rw [harith, rootAux_succ, hstep]
      exact rootAux_mono (by omega) (rootAux_update_of_ne hrb h2 hne)
    | some y =>
      rw [hx] at h1
      have hxrb : x ≠ rb := by
        intro hc
        rw [hc, hrb] at hx
        cases hx
      have harith : f1 + 1 + f2 = (f1 + f2) + 1 := by omega
      rw [harith, rootAux_succ, Function.update_noteq hxrb, hx]
      exact ih h1

/-- The root of every node after a merge of two *different* trees. -/
theorem rootN_merge [Fintype V] {p : ParentMap V} {c rc rd : V} {d : V}
    (hrc : rootN p c = some rc) (hrd : rootN p d = some rd) (hne : rc ≠ rd)
    {x rx : V} (hx : rootN p x = some rx) :
    rootN (Function.update p rd (some c)) x = some (if rx = rd then rc else rx) := by
  have hrdnone : p rd = none := rootAux_root_parent_none hrd
  by_cases hcase : rx = rd
  · subst hcase
    rw [if_pos rfl]
    have hterm : TerminatesFrom (Function.update p rx (some c)) x :=
      ⟨Fintype.card V + Fintype.card V, rc, rootAux_extend hrdnone hx hrc hne⟩
    obtain ⟨r, hr⟩ := terminates_rootAux_card hterm
    have : r = rc := rootAux_unique hr (rootAux_extend hrdnone hx hrc hne)
    rw [rootN, hr, this]
  · rw [if_neg hcase]
    exact rootAux_update_of_ne hrdnone hx hcase

/-- The chain from `x` to the root `rb` survives updating `rb`'s parent
(all earlier nodes keep their parents). -/
theorem chain_update_survives {p : ParentMap V} {rb : V} {c : Option V} {k : Nat} {x : V}
    (hrb : p rb = none) (h : pIter p k x = some rb) :
    Relation.ReflTransGen (pstep (Function.update p rb c)) x rb := by
  induction k generalizing x with
  | zero =>
    obtain rfl : x = rb := by injection h
    exact Relation.ReflTransGen.refl
  | succ k ih =>
    rw [pIter_succ] at h
    cases hx : p x with
    | none =>
      rw [hx] at h
      cases h
    | some y =>
      rw [hx] at h
      have hxrb : x ≠ rb := by
        intro hc
        rw [hc, hrb] at hx
        cases hx
      have hstep : pstep (Function.update p rb c) x y := by
        unfold pstep
        rw [Function.update_noteq hxrb]
        exact hx
      exact Relation.ReflTransGen.head hstep (ih h)

/-- The one-node state after `a.merge(a)` on a fresh singleton `TreeSet`:
the node became its own parent. -/
def p1one : ParentMap (Fin 1) := fun _ => some 0

/-- A fresh singleton `TreeSet` state. -/
def p0one : ParentMap (Fin 1) := fun _ => none

/-- **C9 (counterexample).** `a.merge(a)` on a fresh `TreeSet` makes the
node its own parent; afterwards `a.is_connected(a)` does not return
`True` — it does not return at all (`root` recurses forever). -/
theorem treeset_merge_self_diverges :
    TreeSet.merge p0one 0 0 = some p1one ∧
    TreeSet.is_connected p1one 0 0 = none ∧
    TreeSet.is_connected p1one 0 0 ≠ some true ∧
    ¬ TerminatesFrom p1one 0 := by
  have hall : ∀ (f : Nat) (x : Fin 1), rootAux p1one f x = none := by
    intro f
    induction f with
    | zero => intro x; rfl
    | succ f ih =>
      intro x
      rw [rootAux_succ]
      have : p1one x = some 0 := rfl
      rw [this]
      exact ih 0
  refine ⟨?_, ?_, ?_, ?_⟩
  · show (rootN p0one 0).map _ = _
    have h1 : rootN p0one 0 = some 0 := rfl
    rw [h1]
    simp only [Option.map_some']
    congr 1
    funext x
    have hx : x = 0 := Fin.ext (by omega)
    rw [hx]
    rfl
  · show (match rootN p1one 0, rootN p1one 0 with
      | some ra, some rb => some (decide (ra = rb))
      | _, _ => none) = none
    rw [show rootN p1one 0 = none from hall _ 0]
  · intro h
    rw [show TreeSet.is_connected p1one 0 0 = none from by
      show (match rootN p1one 0, rootN p1one 0 with
        | some ra, some rb => some (decide (ra = rb))
        | _, _ => none) = none
      rw [show rootN p1one 0 = none from hall _ 0]] at h
    cases h
  · intro ⟨f, r, hroot⟩
    rw [hall f 0] at hroot
    cases hroot

/-- **C9 (amended).** On states where every parent chain terminates:
after `a.merge(b)` for trees with distinct roots, `a.is_connected(b)`
returns `True`; connectivity persists across any further merge of trees
with distinct roots; and `is_connected` is reflexive and symmetric.
(When the merged trees are already connected — including `a.merge(a)` —
the claim fails: `is_connected` no longer returns; see the
counterexample and C10.) -/
theorem treeset_connected_after_merge [Fintype V] :
    (∀ (p : ParentMap V) (a b : V), Grounded p → rootN p a ≠ rootN p b →
      ∃ p', TreeSet.merge p a b = some p' ∧ Grounded p' ∧
        TreeSet.is_connected p' a b = some true) ∧
    (∀ (p : ParentMap V) (c d : V) (p' : ParentMap V), Grounded p →
      rootN p c ≠ rootN p d → TreeSet.merge p c d = some p' →
      ∀ x y, TreeSet.is_connected p x y = some true →
        TreeSet.is_connected p' x y = some true) ∧
    (∀ (p : ParentMap V) (a : V), Grounded p → TreeSet.is_connected p a a = some true) ∧
    (∀ (p : ParentMap V) (a b : V), TreeSet.is_connected p a b = TreeSet.is_connected p b a) := by
  have hmerge : ∀ (p : ParentMap V) (c d : V), Grounded p → rootN p c ≠ rootN p d →
      ∃ rc rd, rootN p c = some rc ∧ rootN p d = some rd ∧ rc ≠ rd ∧
        TreeSet.merge p c d = some (Function.update p rd (some c)) := by
    intro p c d hg hne
    obtain ⟨rc, hrc⟩ := Option.isSome_iff_exists.mp (hg c)
    obtain ⟨rd, hrd⟩ := Option.isSome_iff_exists.mp (hg d)
    refine ⟨rc, rd, hrc, hrd, ?_, ?_⟩
    · intro h
      rw [h] at hrc
      rw [hrc, hrd] at hne
      exact hne rfl
    · unfold TreeSet.merge
      rw [hrd]
      rfl
  refine ⟨?_, ?_, ?_, ?_⟩
  · intro p a b hg hne
    obtain ⟨ra, rb, hra, hrb, hrab, hm⟩ := hmerge p a b hg hne
    refine ⟨_, hm, ?_, ?_⟩
    · intro x
      obtain ⟨rx, hrx⟩ := Option.isSome_iff_exists.mp (hg x)
      rw [rootN_merge hra hrb hrab hrx]
      rfl
    · unfold TreeSet.is_connected
      rw [rootN_merge hra hrb hrab hra, rootN_merge hra hrb hrab hrb,
        if_neg hrab, if_pos rfl]
      simp
  · intro p c d p' hg hne hm x y hxy
    obtain ⟨rc, rd, hrc, hrd, hrcd, hm'⟩ := hmerge p c d hg hne
    rw [hm'] at hm
    cases hm
    unfold TreeSet.is_connected at hxy
    cases hx : rootN p x with
    | none => rw [hx] at hxy; cases hxy
    | some rx =>
      cases hy : rootN p y with
      | none => rw [hx, hy] at hxy; cases hxy
      | some ry =>
        rw [hx, hy] at hxy
        have hxyeq : rx = ry := by
          have := Option.some.inj hxy
          exact of_decide_eq_true this
        unfold TreeSet.is_connected
        rw [rootN_merge hrc hrd hrcd hx, rootN_merge hrc hrd hrcd hy, hxyeq]
        simp
  · intro p a hg
    obtain ⟨ra, hra⟩ := Option.isSome_iff_exists.mp (hg a)
    unfold TreeSet.is_connected
    rw [hra]
    simp
  · intro p a b
    unfold TreeSet.is_connected
    cases hx : rootN p a with
    | none =>
      cases hy : rootN p b with
      | none => rfl
      | some rb => rfl
    | some ra =>
      cases hy : rootN p b with
      | none => rfl
      | some rb =>
        by_cases h : ra = rb
        · rw [h]
        · have h' : ¬ rb = ra := fun hc => h hc.symm
          simp [h, h']

/-- Witness for C9 (amended) on a fresh two-node forest. -/
theorem treeset_connected_after_merge_witness :
    (Grounded (fun _ => none : ParentMap (Fin 2)) ∧
      rootN (fun _ => none : ParentMap (Fin 2)) 0 ≠
        rootN (fun _ => none : ParentMap (Fin 2)) 1) ∧
    (∃ p', TreeSet.merge (fun _ => none : ParentMap (Fin 2)) 0 1 = some p' ∧
      Grounded p' ∧ TreeSet.is_connected p' 0 1 = some true) :=
  ⟨⟨by decide, by decide⟩,
    (treeset_connected_after_merge (V := Fin 2)).1 (fun _ => none) 0 1
      (by decide) (by decide)⟩

/-- **C10.** `TreeSet.root` terminates from a node exactly when the
parent chain from it reaches no cycle; on a fully grounded state,
`a.merge(b)` keeps every chain terminating iff `a` and `b` had distinct
roots, and merging two already-connected trees (including `a.merge(a)`)
creates a parent cycle after which `root` — and hence `is_connected` —
no longer terminates on `a` or `b`. -/
theorem treeset_root_terminates_iff_acyclic [Fintype V] :
    (∀ (p : ParentMap V) (x : V), TerminatesFrom p x ↔ AcyclicFrom p x) ∧
    (∀ (p : ParentMap V) (a b : V), Grounded p →
      ∃ p', TreeSet.merge p a b = some p' ∧
        (Grounded p' ↔ rootN p a ≠ rootN p b) ∧
        (rootN p a = rootN p b →
          ¬ TerminatesFrom p' a ∧ ¬ TerminatesFrom p' b ∧
            TreeSet.is_connected p' a b = none)) := by
  constructor
  · exact terminates_iff_acyclic
  · intro p a b hg
    obtain ⟨ra, hra⟩ := Option.isSome_iff_exists.mp (hg a)
    obtain ⟨rb, hrb⟩ := Option.isSome_iff_exists.mp (hg b)
    have hrbnone : p rb = none := rootAux_root_parent_none hrb
    refine ⟨Function.update p rb (some a), ?_, ?_, ?_⟩
    · unfold TreeSet.merge
      rw [hrb]
      rfl
    · constructor
      · -- grounded after merge → the roots differed
        intro hg' heq
        rw [hra, hrb] at heq
        have hraeq : ra = rb := Option.some.inj heq
        obtain ⟨la, _, hia, _⟩ := rootAux_some_iff.mp hra
        have hia' : pIter p la a = some rb := by
          rw [← hraeq]
          exact hia
        have hchain := chain_update_survives (c := some a) hrbnone hia'
        have hterm : TerminatesFrom (Function.update p rb (some a)) a :=
          rootN_terminates.mp (hg' a)
        have hstep : pstep (Function.update p rb (some a)) rb a := by
          unfold pstep
          exact Function.update_same rb (some a) p
        have hcyc : Relation.TransGen (pstep (Function.update p rb (some a))) a a :=
          Relation.TransGen.tail' hchain hstep
        exact (terminates_iff_acyclic _ a).mp hterm a Relation.ReflTransGen.refl hcyc
      · -- distinct roots: grounded is preserved
        intro hne
        have hne' : ra ≠ rb := by
          intro h
          apply hne
          rw [hra, hrb, h]
        intro x
        obtain ⟨rx, hrx⟩ := Option.isSome_iff_exists.mp (hg x)
        rw [rootN_merge hra hrb hne' hrx]
        rfl
    · intro heq
      rw [hra, hrb] at heq
      have hraeq : ra = rb := Option.some.inj heq
      have hstep : pstep (Function.update p rb (some a)) rb a := by
        unfold pstep
        exact Function.update_same rb (some a) p
      obtain ⟨la, _, hia, _⟩ := rootAux_some_iff.mp hra
      obtain ⟨lb, _, hib, _⟩ := rootAux_some_iff.mp hrb
      have hia' : pIter p la a = some rb := by
        rw [← hraeq]
        exact hia
      have hchaina := chain_update_survives (c := some a) hrbnone hia'
      have hchainb := chain_update_survives (c := some a) hrbnone hib
      have hta : ¬ TerminatesFrom (Function.update p rb (some a)) a := by
        intro hterm
        have hcyc : Relation.TransGen (pstep (Function.update p rb (some a))) a a :=
          Relation.TransGen.tail' hchaina hstep
        exact (terminates_iff_acyclic _ a).mp hterm a Relation.ReflTransGen.refl hcyc
      have htb : ¬ TerminatesFrom (Function.update p rb (some a)) b := by
        intro hterm
        have hcyc : Relation.TransGen (pstep (Function.update p rb (some a))) rb rb :=
          Relation.TransGen.head' hstep hchaina
        exact (terminates_iff_acyclic _ b).mp hterm rb hchainb hcyc
      refine ⟨hta, htb, ?_⟩
      have hnone : rootN (Function.update p rb (some a)) a = none := by
        cases hcase : rootN (Function.update p rb (some a)) a with
        | none => rfl
        | some r =>
          exact absurd (rootN_terminates.mp (by rw [hcase]; rfl)) hta
      unfold TreeSet.is_connected
      rw [hnone]

/-- Witness for C10: a fresh singleton `TreeSet` is grounded, and merging
it with itself yields a state where `root` no longer terminates. -/
theorem treeset_root_terminates_iff_acyclic_witness :
    Grounded p0one ∧
    (∃ p', TreeSet.merge p0one 0 0 = some p' ∧
      (Grounded p' ↔ rootN p0one 0 ≠ rootN p0one 0) ∧
      (rootN p0one 0 = rootN p0one 0 →
        ¬ TerminatesFrom p' 0 ∧ ¬ TerminatesFrom p' 0 ∧
          TreeSet.is_connected p' 0 0 = none)) :=
  ⟨by decide, (treeset_root_terminates_iff_acyclic (V := Fin 1)).2 p0one 0 0 (by decide)⟩

/-! ## The grid (`labyrinth/grid.py`) and the maze generators
(`labyrinth/generate.py`) -/

/-- The cells of a `width × height` grid. -/
def validCells (w h : Nat) : Finset Cell :=
  (Finset.range h) ×ˢ (Finset.range w)

theorem mem_validCells {w h : Nat} {c : Cell} :
    c ∈ validCells w h ↔ c.1 < h ∧ c.2 < w := by
  unfold validCells
  rw [Finset.mem_product]
  simp

theorem adjacentCells_symm {a b : Cell} (h : adjacentCells a b) : adjacentCells b a := by
  unfold adjacentCells at h ⊢
  cases hd : Direction.between a b with
  | none => rw [hd] at h; cases h
  | some d => rw [Direction.between_symm hd]; rfl

theorem adjacentCells_ne {a b : Cell} (h : adjacentCells a b) : a ≠ b := by
  intro hc
  rw [hc] at h
  unfold adjacentCells at h
  rw [Direction.between_irrefl] at h
  cases h

/-- The adjacency graph `Grid.__init__` wires: every cell is a vertex,
and cell `(r, c)` is connected (bidirectionally) to `(r-1, c)` and
`(r, c-1)` whenever those exist — i.e. the pairs are exactly the
coordinate-adjacent pairs of valid cells. -/
def gridGraph (w h : Nat) : Graph Cell :=
  ⟨validCells w h,
    (validCells w h ×ˢ validCells w h).filter (fun e => adjacentCells e.1 e.2),
    true⟩

theorem gridGraph_pairs {w h : Nat} {a b : Cell} :
    (a, b) ∈ (gridGraph w h).pairs ↔
      a ∈ validCells w h ∧ b ∈ validCells w h ∧ adjacentCells a b := by
  unfold gridGraph
  simp only [Finset.mem_filter, Finset.mem_product]
  tauto

theorem gridGraph_invariant (w h : Nat) : (gridGraph w h).Invariant := by
  intro e he
  have he' : (e.1, e.2) ∈ (gridGraph w h).pairs := by
    rwa [Prod.mk.eta]
  rw [gridGraph_pairs] at he'
  exact ⟨he'.1, he'.2.1⟩

theorem gridGraph_pairs_symm {w h : Nat} {a b : Cell}
    (hab : (a, b) ∈ (gridGraph w h).pairs) : (b, a) ∈ (gridGraph w h).pairs := by
  rw [gridGraph_pairs] at hab ⊢
  exact ⟨hab.2.1, hab.1, adjacentCells_symm hab.2.2⟩

/-- Reachability is symmetric on the (symmetric) grid graph. -/
theorem gridGraph_reaches_symm {w h : Nat} {a b : Cell}
    (hab : (gridGraph w h).Reaches a b) : (gridGraph w h).Reaches b a := by
  induction hab with
  | refl => exact Relation.ReflTransGen.refl
  | tail hab hbc ih =>
    exact Relation.ReflTransGen.head (gridGraph_pairs_symm hbc) ih

/-- Every valid cell is grid-reachable from the origin cell `(0, 0)`. -/
theorem gridGraph_reaches_origin (w h : Nat) :
    ∀ n (c : Cell), c.1 + c.2 = n → c ∈ validCells w h →
      (gridGraph w h).Reaches (0, 0) c := by
  intro n
  induction n using Nat.strong_induction_on with
  | _ n ih =>
    intro c hsum hc
    rcases Nat.eq_zero_or_pos c.1 with h1 | h1
    · rcases Nat.eq_zero_or_pos c.2 with h2 | h2
      · have : c = (0, 0) := Prod.ext h1 h2
        rw [this]
        exact Relation.ReflTransGen.refl
      · -- step from `(c.1, c.2 - 1)`
        have hprev : ((c.1, c.2 - 1) : Cell) ∈ validCells w h := by
          rw [mem_validCells] at hc ⊢
          omega
        have hadj : adjacentCells (c.1, c.2 - 1) c := by
          unfold adjacentCells
          have : Direction.between (c.1, c.2 - 1) c = some .E := by
            rw [Direction.between_spec]
            simp only [Direction.dx, Direction.dy]
            omega
          rw [this]
          rfl
        have hreach := ih (c.1 + (c.2 - 1)) (by omega) (c.1, c.2 - 1) rfl hprev
        refine Relation.ReflTransGen.tail hreach ?_
        rw [gridGraph_pairs]
        exact ⟨hprev, hc, hadj⟩
    · -- step from `(c.1 - 1, c.2)`
      have hprev : ((c.1 - 1, c.2) : Cell) ∈ validCells w h := by
        rw [mem_validCells] at hc ⊢
        omega
      have hadj : adjacentCells (c.1 - 1, c.2) c := by
        unfold adjacentCells
        have : Direction.between (c.1 - 1, c.2) c = some .S := by
          rw [Direction.between_spec]
          simp only [Direction.dx, Direction.dy]
          omega
        rw [this]
        rfl
      have hreach := ih ((c.1 - 1) + c.2) (by omega) (c.1 - 1, c.2) rfl hprev
      refine Relation.ReflTransGen.tail hreach ?_
      rw [gridGraph_pairs]
      exact ⟨hprev, hc, hadj⟩

/-! ### Open-wall pairs as a graph -/

/-- Cells `a` and `b` are joined by an opened wall (in either call order). -/
def wallStep (walls : List (Cell × Cell)) (a b : Cell) : Prop :=
  (a, b) ∈ walls ∨ (b, a) ∈ walls

/-- Connectivity along opened walls. -/
def WallReach (walls : List (Cell × Cell)) (a b : Cell) : Prop :=
  Relation.ReflTransGen (wallStep walls) a b

theorem wallStep_symm {walls : List (Cell × Cell)} {a b : Cell}
    (hab : wallStep walls a b) : wallStep walls b a := hab.symm

theorem wallStep_mono {walls walls' : List (Cell × Cell)} {a b : Cell}
    (hsub : ∀ e ∈ walls, e ∈ walls') (hab : wallStep walls a b) :
    wallStep walls' a b := by
  rcases hab with h | h
  · exact Or.inl (hsub _ h)
  · exact Or.inr (hsub _ h)

theorem wallReach_mono {walls walls' : List (Cell × Cell)} {a b : Cell}
    (hsub : ∀ e ∈ walls, e ∈ walls') (hab : WallReach walls a b) :
    WallReach walls' a b :=
  Relation.ReflTransGen.mono (fun _ _ => wallStep_mono hsub) hab

/-- The same unordered wall pair. -/
def samePair (e f : Cell × Cell) : Prop :=
  e = f ∨ (e.1 = f.2 ∧ e.2 = f.1)

/-- Valid cells as bounded indices. -/
def toCell {w h : Nat} (a : Fin h × Fin w) : Cell := (a.1.val, a.2.val)

theorem toCell_inj {w h : Nat} {a b : Fin h × Fin w} (hab : toCell a = toCell b) :
    a = b := by
  unfold toCell at hab
  have h1 : a.1.val = b.1.val := congrArg Prod.fst hab
  have h2 : a.2.val = b.2.val := congrArg Prod.snd hab
  exact Prod.ext (Fin.ext h1) (Fin.ext h2)

theorem toCell_mem_validCells {w h : Nat} (a : Fin h × Fin w) :
    toCell a ∈ validCells w h := by
  rw [mem_validCells]
  exact ⟨a.1.isLt, a.2.isLt⟩

/-- A valid cell, as bounded indices. -/
def toVtx {w h : Nat} (c : Cell) (hc : c ∈ validCells w h) : Fin h × Fin w :=
  (⟨c.1, (mem_validCells.mp hc).1⟩, ⟨c.2, (mem_validCells.mp hc).2⟩)

theorem toCell_toVtx {w h : Nat} {c : Cell} (hc : c ∈ validCells w h) :
    toCell (toVtx c hc) = c := rfl

theorem toVtx_toCell {w h : Nat} (a : Fin h × Fin w) :
    toVtx (toCell a) (toCell_mem_validCells a) = a := by
  apply toCell_inj
  rw [toCell_toVtx]

/-- The graph on the maze's cells whose edges are exactly the opened wall
pairs. -/
def mazeGraph (w h : Nat) (walls : List (Cell × Cell)) : SimpleGraph (Fin h × Fin w) where
  Adj a b := toCell a ≠ toCell b ∧ wallStep walls (toCell a) (toCell b)
  symm := by
    intro a b ⟨h1, h2⟩
    exact ⟨fun hc => h1 hc.symm, wallStep_symm h2⟩
  loopless := by
    intro a ⟨h1, _⟩
    exact h1 rfl

/-- A walk between distinct endpoints uses an edge at its far endpoint. -/
theorem walk_exists_adj_edge_end {U : Type} {G : SimpleGraph U} :
    ∀ {u v : U} (q : G.Walk u v), u ≠ v → ∃ y, G.Adj y v ∧ s(y, v) ∈ q.edges := by
  intro u v q
  induction q with
  | nil =>
    intro hne
    exact absurd rfl hne
  | @cons a m vv hadj q' ih =>
    intro hne
    by_cases hmv : m = vv
    · subst hmv
      exact ⟨a, hadj, by simp⟩
    · obtain ⟨y, hy, hmem⟩ := ih hmv
      exact ⟨y, hy, by simp [hmem]⟩

/-- Attaching a pendant edge at a previously isolated vertex preserves
acyclicity. -/
theorem isAcyclic_add_leaf {U : Type} [DecidableEq U] {G G' : SimpleGraph U} {p c : U}
    (hG : G.IsAcyclic)
    (hAdj : ∀ x y, G'.Adj x y ↔ G.Adj x y ∨ (x = p ∧ y = c) ∨ (x = c ∧ y = p))
    (hfresh : ∀ y, ¬ G.Adj c y) (hpc : p ≠ c) : G'.IsAcyclic := by
  intro v wk hwk
  by_cases hc : c ∈ wk.support
  · -- rotate the cycle to start at `c`; its only neighbor is `p`
    have hwr : (wk.rotate hc).IsCycle := hwk.rotate hc
    generalize wk.rotate hc = wr at hwr
    cases wr with
    | nil => exact SimpleGraph.Walk.IsCycle.not_of_nil hwr
    | cons hadj q =>
      rename_i b
      have hbp : b = p := by
        rcases (hAdj c b).mp hadj with hA | ⟨hcp, _⟩ | ⟨_, hbp⟩
        · exact absurd hA (hfresh b)
        · exact absurd hcp.symm hpc
        · exact hbp
      rw [SimpleGraph.Walk.cons_isCycle_iff] at hwr
      obtain ⟨hqpath, hqe⟩ := hwr
      have hbc : b ≠ c := by
        rw [hbp]
        exact hpc
      obtain ⟨y, hy, hmem⟩ := walk_exists_adj_edge_end q hbc
      have hyp : y = p := by
        rcases (hAdj y c).mp hy with hA | ⟨hyp, _⟩ | ⟨_, hcp⟩
        · exact absurd (G.symm hA) (hfresh y)
        · exact hyp
        · exact absurd hcp.symm hpc
      apply hqe
      rw [Sym2.eq_swap]
      have hyb : y = b := by
        rw [hyp, hbp]
      rw [hyb] at hmem
      exact hmem
  · -- the cycle avoids `c`, so it lives in `G`
    have hsub : ∀ e ∈ wk.edges, e ∈ G.edgeSet := by
      intro e he
      induction e using Sym2.ind with
      | _ x y =>
        have hadj : G'.Adj x y := wk.adj_of_mem_edges he
        rcases (hAdj x y).mp hadj with hA | ⟨hxp, hyc⟩ | ⟨hxc, hyp⟩
        · exact (SimpleGraph.mem_edgeSet G).mpr hA
        · subst hyc
          exact absurd (SimpleGraph.Walk.snd_mem_support_of_mem_edges wk he) hc
        · subst hxc
          exact absurd (SimpleGraph.Walk.fst_mem_support_of_mem_edges wk he) hc
    exact hG (wk.transfer G hsub) (hwk.transfer hsub)

/-- The invariant of a partially grown spanning tree: the cells `S`
carved so far are valid, the opened walls join adjacent carved cells,
there are `|S| - 1` of them, every carved cell is wall-connected to the
seed `c0`, no wall pair repeats, and the open-wall graph is acyclic. -/
def TreeInv (w h : Nat) (c0 : Cell) (S : Finset Cell) (walls : List (Cell × Cell)) : Prop :=
  c0 ∈ S ∧ S ⊆ validCells w h ∧
  (∀ e ∈ walls, e.1 ∈ S ∧ e.2 ∈ S ∧ adjacentCells e.1 e.2) ∧
  walls.length + 1 = S.card ∧
  (∀ c ∈ S, WallReach walls c0 c) ∧
  List.Pairwise (fun e f => ¬ samePair e f) walls ∧
  (mazeGraph w h walls).IsAcyclic

theorem mazeGraph_nil_bot (w h : Nat) : mazeGraph w h [] = ⊥ := by
  ext a b
  simp [mazeGraph, wallStep]

theorem treeInv_init {w h : Nat} {c0 : Cell} (hc0 : c0 ∈ validCells w h) :
    TreeInv w h c0 {c0} [] := by
  refine ⟨Finset.mem_singleton_self c0, ?_, ?_, ?_, ?_, ?_, ?_⟩
  · intro x hx
    rw [Finset.mem_singleton.mp hx]
    exact hc0
  · intro e he
    cases he
  · simp
  · intro c hcmem
    rw [Finset.mem_singleton.mp hcmem]
    exact Relation.ReflTransGen.refl
  · exact List.Pairwise.nil
  · rw [mazeGraph_nil_bot]
    exact SimpleGraph.isAcyclic_bot

/-- Carving one wall to a fresh adjacent cell preserves the tree
invariant (in either argument order of `open_wall`). -/
theorem treeInv_extend {w h : Nat} {c0 : Cell} {S : Finset Cell}
    {walls : List (Cell × Cell)} {p c : Cell} {e : Cell × Cell}
    (hinv : TreeInv w h c0 S walls) (hp : p ∈ S) (hc : c ∉ S)
    (hcv : c ∈ validCells w h) (hadj : adjacentCells p c)
    (he : e = (p, c) ∨ e = (c, p)) :
    TreeInv w h c0 (insert c S) (walls ++ [e]) := by
  obtain ⟨h0, hSv, hwalls, hcount, hreach, hpair, hacyc⟩ := hinv
  have hpc : p ≠ c := adjacentCells_ne hadj
  have hestep : wallStep (walls ++ [e]) p c := by
    rcases he with rfl | rfl
    · exact Or.inl (by simp)
    · exact Or.inr (by simp)
  refine ⟨Finset.mem_insert_of_mem h0, ?_, ?_, ?_, ?_, ?_, ?_⟩
  · intro x hx
    rcases Finset.mem_insert.mp hx with rfl | hx'
    · exact hcv
    · exact hSv hx'
  · intro f hf
    rcases List.mem_append.mp hf with hf' | hf'
    · obtain ⟨h1, h2, h3⟩ := hwalls f hf'
      exact ⟨Finset.mem_insert_of_mem h1, Finset.mem_insert_of_mem h2, h3⟩
    · rw [List.mem_singleton.mp hf']
      rcases he with rfl | rfl
      · exact ⟨Finset.mem_insert_of_mem hp, Finset.mem_insert_self c S, hadj⟩
      · exact ⟨Finset.mem_insert_self c S, Finset.mem_insert_of_mem hp,
          adjacentCells_symm hadj⟩
  · rw [List.length_append, Finset.card_insert_of_not_mem hc]
    simp only [List.length_singleton]
    omega
  · intro x hx
    rcases Finset.mem_insert.mp hx with rfl | hx'
    · exact Relation.ReflTransGen.tail
        (wallReach_mono (fun f hf => List.mem_append_left _ hf) (hreach p hp)) hestep
    · exact wallReach_mono (fun f hf => List.mem_append_left _ hf) (hreach x hx')
  · rw [List.pairwise_append]
    refine ⟨hpair, List.pairwise_singleton _ _, ?_⟩
    intro f hf g hg
    rw [List.mem_singleton.mp hg]
    intro hsame
    obtain ⟨h1, h2, _⟩ := hwalls f hf
    rcases he with rfl | rfl
    · rcases hsame with rfl | ⟨ha, hb⟩
      · exact hc h2
      · have ha' : f.1 = c := ha
        exact hc (ha' ▸ h1 : c ∈ S)
    · rcases hsame with rfl | ⟨ha, hb⟩
      · exact hc h1
      · have hb' : f.2 = c := hb
        exact hc (hb' ▸ h2 : c ∈ S)
  · -- acyclicity: the new edge is pendant at the fresh cell `c`
    have hcp : toCell (toVtx p (hSv hp)) = p := toCell_toVtx (hSv hp)
    have hcc : toCell (toVtx c hcv) = c := toCell_toVtx hcv
    refine isAcyclic_add_leaf (p := toVtx p (hSv hp)) (c := toVtx c hcv) hacyc ?_ ?_ ?_
    · intro x y
      constructor
      · intro ⟨hne, hstep⟩
        rcases hstep with hmem | hmem
        · rcases List.mem_append.mp hmem with hm | hm
          · exact Or.inl ⟨hne, Or.inl hm⟩
          · have hme : (toCell x, toCell y) = e := List.mem_singleton.mp hm
            rcases he with rfl | rfl
            · refine Or.inr (Or.inl ⟨toCell_inj ?_, toCell_inj ?_⟩)
              · rw [hcp]; exact congrArg Prod.fst hme
              · rw [hcc]; exact congrArg Prod.snd hme
            · refine Or.inr (Or.inr ⟨toCell_inj ?_, toCell_inj ?_⟩)
              · rw [hcc]; exact congrArg Prod.fst hme
              · rw [hcp]; exact congrArg Prod.snd hme
        · rcases List.mem_append.mp hmem with hm | hm
          · exact Or.inl ⟨hne, Or.inr hm⟩
          · have hme : (toCell y, toCell x) = e := List.mem_singleton.mp hm
            rcases he with rfl | rfl
            · refine Or.inr (Or.inr ⟨toCell_inj ?_, toCell_inj ?_⟩)
              · rw [hcc]; exact congrArg Prod.snd hme
              · rw [hcp]; exact congrArg Prod.fst hme
            · refine Or.inr (Or.inl ⟨toCell_inj ?_, toCell_inj ?_⟩)
              · rw [hcp]; exact congrArg Prod.snd hme
              · rw [hcc]; exact congrArg Prod.fst hme
      · intro hcase
        rcases hcase with ⟨hne, hstep⟩ | ⟨rfl, rfl⟩ | ⟨rfl, rfl⟩
        · exact ⟨hne, wallStep_mono (fun f hf => List.mem_append_left _ hf) hstep⟩
        · refine ⟨by rw [hcp, hcc]; exact fun hq => hpc hq, ?_⟩
          rw [hcp, hcc]
          rcases he with rfl | rfl
          · exact Or.inl (List.mem_append_right _ (List.mem_singleton_self _))
          · exact Or.inr (List.mem_append_right _ (List.mem_singleton_self _))
        · refine ⟨by rw [hcp, hcc]; exact fun hq => hpc hq.symm, ?_⟩
          rw [hcp, hcc]
          rcases he with rfl | rfl
          · exact Or.inr (List.mem_append_right _ (List.mem_singleton_self _))
          · exact Or.inl (List.mem_append_right _ (List.mem_singleton_self _))
    · intro y ⟨_, hstep⟩
      rw [hcc] at hstep
      rcases hstep with hm | hm
      · exact hc (hwalls _ hm).1
      · exact hc (hwalls _ hm).2.1
    · intro hq
      have : p = c := by rw [← hcp, ← hcc, hq]
      exact hpc this

/-! ## The `RandomDepthFirstSearchGenerator`

`generate_maze` runs `depth_first_search(0, 0, self.cell_visitor)` on the
grid graph.  The traversal consults only the graph's adjacency sets and
its own `visited` dict, never the visitor's writes (`prev_cells` and the
cells' `open_walls`), so a run factors into the traversal's visit order
followed by a fold of `cell_visitor` over that order; an exception in the
visitor aborts either form at the same point with the same error.  The
arbitrary iteration order of `self.maze.neighbors(...)` inside the
visitor is a second oracle `enum2`. -/

/-- `prev_cells` as an association list; a later assignment is consed on
and shadows an earlier one. -/
def prevFind : List (Cell × Cell) → Cell → Option Cell
  | [], _ => none
  | (n, y) :: rest, c => if n = c then some y else prevFind rest c

/-- The mutable state threaded through `cell_visitor`: the `prev_cells`
map, the cells' accumulated `open_walls` (`W`), the `open_wall` call
trace, and the events dispatched so far. -/
structure GenState where
  prev : List (Cell × Cell)
  W : WallState
  walls : List (Cell × Cell)
  events : List MazeUpdate

/-- The `MazeUpdate` built by `MazeGenerator.on_wall_removed`. -/
def wallRemovedEvent (a b : Cell) : MazeUpdate :=
  ⟨MazeUpdateType.WALL_REMOVED, a, some b, none⟩

/-- The `for neighbor in self.maze.neighbors(*cell.coordinates)` loop:
assign `prev_cells[neighbor] = cell` for each neighbor (in oracle order)
whose `open_walls` is empty. -/
def assignPrev (enum2 : Cell → List Cell) (pr : List (Cell × Cell))
    (W : WallState) (c : Cell) : List (Cell × Cell) :=
  ((enum2 c).filter (fun n => decide (noOpenWalls W n))).foldl
    (fun acc n => (n, c) :: acc) pr

/-- `RandomDepthFirstSearchGenerator.cell_visitor(cell)`: if the cell has
a recorded predecessor, open the wall from it (the `StopIteration` of
`Direction.between` on non-adjacent cells is an error) and dispatch a
`WALL_REMOVED` event; then record this cell as predecessor of each
neighbor without open walls.  The `maze.neighbors` call raises `ValueError`
for an out-of-range cell. -/
def cellVisitor (w h : Nat) (enum2 : Cell → List Cell) (st : GenState)
    (c : Cell) : Except String GenState :=
  match prevFind st.prev c with
  | none =>
      if c ∈ validCells w h then
        .ok { st with prev := assignPrev enum2 st.prev st.W c }
      else .error "Invalid row or column"
  | some p =>
      match open_wall st.W p c with
      | none => .error "StopIteration"
      | some W' =>
          if c ∈ validCells w h then
            .ok { prev := assignPrev enum2 st.prev W' c, W := W',
                  walls := st.walls ++ [(p, c)],
                  events := st.events ++ [wallRemovedEvent p c] }
          else .error "Invalid row or column"

/-- Folding the visitor over the visit order, stopping at the first
exception. -/
def genFold (w h : Nat) (enum2 : Cell → List Cell) :
    GenState → List Cell → Except String GenState
  | st, [] => .ok st
  | st, c :: rest =>
      match cellVisitor w h enum2 st c with
      | .error e => .error e
      | .ok st' => genFold w h enum2 st' rest

/-- The initial generator state: `prev_cells = {}`, no open walls, no
events. -/
def initGenState : GenState := ⟨[], ∅, [], []⟩

/-- `RandomDepthFirstSearchGenerator.generate_maze` on a fresh
`width × height` maze: depth-first search from cell `(0, 0)` with
`cell_visitor`, factored as the visit order followed by the visitor
fold. -/
def generate_maze (w h : Nat) (enum enum2 : Cell → List Cell) :
    Except String GenState :=
  match (gridGraph w h).depth_first_search enum (0, 0) with
  | .error e => .error e
  | .ok order => genFold w h enum2 initGenState order

theorem prevFind_foldl (c : Cell) :
    ∀ (l : List Cell) (pr : List (Cell × Cell)) (x : Cell),
      prevFind (l.foldl (fun acc n => (n, c) :: acc) pr) x =
        if x ∈ l then some c else prevFind pr x := by
  intro l
  induction l with
  | nil =>
    intro pr x
    simp
  | cons a l' ih =>
    intro pr x
    rw [List.foldl_cons, ih]
    by_cases hx : x ∈ l'
    · rw [if_pos hx, if_pos (List.mem_cons_of_mem a hx)]
    · rw [if_neg hx]
      have hcons : prevFind ((a, c) :: pr) x =
          if a = x then some c else prevFind pr x := rfl
      rw [hcons]
      by_cases hxa : a = x
      · rw [if_pos hxa, if_pos (by rw [← hxa]; exact List.mem_cons_self a l')]
      · rw [if_neg hxa, if_neg (fun hm => by
          rcases List.mem_cons.mp hm with hm' | hm'
          · exact hxa hm'.symm
          · exact hx hm')]

theorem toFinset_append_singleton (l : List Cell) (x : Cell) :
    (l ++ [x]).toFinset = insert x l.toFinset := by
  ext y
  simp [or_comm]

theorem someBind {α β : Type} (x : α) (f : α → Option β) :
    (some x >>= f) = f x := rfl

theorem applyOpens_append_singleton (l : List (Cell × Cell)) :
    ∀ (W0 : WallState) (e : Cell × Cell),
      applyOpens W0 (l ++ [e]) =
        match applyOpens W0 l with
        | none => none
        | some W => open_wall W e.1 e.2 := by
  induction l with
  | nil =>
    intro W0 e
    simp only [List.nil_append]
    unfold applyOpens
    simp only [List.foldlM_cons, List.foldlM_nil]
    cases open_wall W0 e.1 e.2 <;> rfl
  | cons a l' ih =>
    intro W0 e
    unfold applyOpens at ih ⊢
    simp only [List.cons_append, List.foldlM_cons]
    cases open_wall W0 a.1 a.2 with
    | none => rfl
    | some W1 =>
      rw [someBind, someBind]
      exact ih W1 e

theorem applyOpens_mem (l : List (Cell × Cell)) :
    ∀ (W0 W : WallState), applyOpens W0 l = some W →
      ∀ x d, (x, d) ∈ W ↔ ((x, d) ∈ W0 ∨
        ∃ e ∈ l, (x = e.1 ∧ Direction.between e.1 e.2 = some d) ∨
                 (x = e.2 ∧ Direction.between e.1 e.2 = some d.opposite)) := by
  induction l with
  | nil =>
    intro W0 W hfold x d
    have hW : some W0 = some W := by
      unfold applyOpens at hfold
      rw [List.foldlM_nil] at hfold
      exact hfold
    rw [← Option.some.inj hW]
    simp
  | cons a l' ih =>
    intro W0 W hfold x d
    unfold applyOpens at hfold
    rw [List.foldlM_cons] at hfold
    cases hW1 : open_wall W0 a.1 a.2 with
    | none =>
      rw [hW1] at hfold
      cases hfold
    | some W1 =>
      rw [hW1, someBind] at hfold
      have hmem := ih W1 W hfold x d
      obtain ⟨d0, hd0, hW1eq⟩ : ∃ d0, Direction.between a.1 a.2 = some d0 ∧
          W1 = insert (a.2, d0.opposite) (insert (a.1, d0) W0) := by
        unfold open_wall at hW1
        cases hb : Direction.between a.1 a.2 with
        | none =>
          rw [hb] at hW1
          cases hW1
        | some d0 =>
          rw [hb] at hW1
          simp only [Option.map_some'] at hW1
          exact ⟨d0, rfl, (Option.some.inj hW1).symm⟩
      have hPa : ((x = a.1 ∧ Direction.between a.1 a.2 = some d) ∨
          (x = a.2 ∧ Direction.between a.1 a.2 = some d.opposite)) ↔
          ((x, d) = (a.2, d0.opposite) ∨ (x, d) = (a.1, d0)) := by
        rw [hd0]
        simp only [Option.some.injEq, Prod.mk.injEq]
        constructor
        · rintro (⟨hx, hd⟩ | ⟨hx, hd⟩)
          · exact Or.inr ⟨hx, hd.symm⟩
          · refine Or.inl ⟨hx, ?_⟩
            rw [hd, Direction.opposite_opposite]
        · rintro (⟨hx, hd⟩ | ⟨hx, hd⟩)
          · refine Or.inr ⟨hx, ?_⟩
            rw [hd, Direction.opposite_opposite]
          · exact Or.inl ⟨hx, hd.symm⟩
      rw [hmem, hW1eq]
      simp only [Finset.mem_insert]
      constructor
      · rintro ((h1 | h1 | h1) | ⟨e, he, hPe⟩)
        · exact Or.inr ⟨a, List.mem_cons_self a l', hPa.mpr (Or.inl h1)⟩
        · exact Or.inr ⟨a, List.mem_cons_self a l', hPa.mpr (Or.inr h1)⟩
        · exact Or.inl h1
        · exact Or.inr ⟨e, List.mem_cons_of_mem a he, hPe⟩
      · rintro (h1 | ⟨e, he, hPe⟩)
        · exact Or.inl (Or.inr (Or.inr h1))
        · rcases List.mem_cons.mp he with rfl | he'
          · rcases hPa.mp hPe with h2 | h2
            · exact Or.inl (Or.inl h2)
            · exact Or.inl (Or.inr (Or.inl h2))
          · exact Or.inr ⟨e, he', hPe⟩

/-- A wall-trace step between `x` and `y` corresponds exactly to an open
wall recorded on `x` towards `y` in the final cell state. -/
theorem wallStep_iff_wall {walls : List (Cell × Cell)} {W : WallState}
    (hmatch : applyOpens ∅ walls = some W)
    (hadj : ∀ e ∈ walls, adjacentCells e.1 e.2) (x y : Cell) :
    wallStep walls x y ↔ ∃ d, Direction.between x y = some d ∧ (x, d) ∈ W := by
  have hmem := applyOpens_mem walls ∅ W hmatch
  constructor
  · intro hs
    rcases hs with hm | hm
    · obtain ⟨d, hd⟩ := Option.isSome_iff_exists.mp (hadj _ hm)
      refine ⟨d, hd, ?_⟩
      rw [hmem x d]
      exact Or.inr ⟨(x, y), hm, Or.inl ⟨rfl, hd⟩⟩
    · obtain ⟨d0, hd0⟩ := Option.isSome_iff_exists.mp (hadj _ hm)
      have hxy : Direction.between x y = some d0.opposite := Direction.between_symm hd0
      refine ⟨d0.opposite, hxy, ?_⟩
      rw [hmem x d0.opposite]
      refine Or.inr ⟨(y, x), hm, Or.inr ⟨rfl, ?_⟩⟩
      rw [Direction.opposite_opposite]
      exact hd0
  · rintro ⟨d, hd, hW⟩
    rw [hmem x d] at hW
    rcases hW with h0 | ⟨e, he, hPe⟩
    · exact absurd h0 (Finset.not_mem_empty _)
    · rcases hPe with ⟨hx1, hbe⟩ | ⟨hx2, hbe⟩
      · rw [← hx1] at hbe
        have hy : y = e.2 := Direction.between_right_unique hd hbe
        refine Or.inl ?_
        have hxe : (x, y) = e := by
          rw [hx1, hy]
        rw [hxe]
        exact he
      · have hbe' : Direction.between e.2 e.1 = some d := by
          have := Direction.between_symm hbe
          rwa [Direction.opposite_opposite] at this
        rw [← hx2] at hbe'
        have hy : y = e.1 := Direction.between_right_unique hd hbe'
        refine Or.inr ?_
        have hxe : (y, x) = e := by
          rw [hx2, hy]
        rw [hxe]
        exact he

/-- The open-wall graph's adjacency coincides with the final cell state:
two cells are joined exactly when the direction between them is open on
the first. -/
theorem mazeGraph_adj_iff_wall {w h : Nat} {walls : List (Cell × Cell)}
    {W : WallState} (hmatch : applyOpens ∅ walls = some W)
    (hadj : ∀ e ∈ walls, adjacentCells e.1 e.2) (a b : Fin h × Fin w) :
    (mazeGraph w h walls).Adj a b ↔
      ∃ d, Direction.between (toCell a) (toCell b) = some d ∧ (toCell a, d) ∈ W := by
  constructor
  · intro ⟨hne, hstep⟩
    exact (wallStep_iff_wall hmatch hadj _ _).mp hstep
  · rintro ⟨d, hd, hW⟩
    refine ⟨?_, (wallStep_iff_wall hmatch hadj _ _).mpr ⟨d, hd, hW⟩⟩
    intro hq
    rw [hq, Direction.between_irrefl] at hd
    cases hd

/-- Wall-trace connectivity transfers to reachability in the open-wall
graph. -/
theorem wallReach_reachable {w h : Nat} {walls : List (Cell × Cell)}
    (hend : ∀ e ∈ walls,
      e.1 ∈ validCells w h ∧ e.2 ∈ validCells w h ∧ adjacentCells e.1 e.2) :
    ∀ {a b : Cell}, WallReach walls a b → ∀ (ha : a ∈ validCells w h)
      (hb : b ∈ validCells w h),
      (mazeGraph w h walls).Reachable (toVtx a ha) (toVtx b hb) := by
  intro a b hr
  induction hr with
  | refl =>
    intro ha hb
    have heq : toVtx a ha = toVtx a hb := rfl
    rw [heq]
  | tail hxy hstep ih =>
    intro ha hb
    rcases hstep with hm | hm
    · obtain ⟨hy, hb', hadj⟩ := hend _ hm
      refine (ih ha hy).trans (SimpleGraph.Adj.reachable ?_)
      refine ⟨?_, ?_⟩
      · rw [toCell_toVtx, toCell_toVtx]
        exact adjacentCells_ne hadj
      · rw [toCell_toVtx, toCell_toVtx]
        exact Or.inl hm
    · obtain ⟨hb', hy, hadj⟩ := hend _ hm
      refine (ih ha hy).trans (SimpleGraph.Adj.reachable ?_)
      refine ⟨?_, ?_⟩
      · rw [toCell_toVtx, toCell_toVtx]
        exact Ne.symm (adjacentCells_ne hadj)
      · rw [toCell_toVtx, toCell_toVtx]
        exact Or.inr hm

theorem validCells_card (w h : Nat) : (validCells w h).card = h * w := by
  unfold validCells
  rw [Finset.card_product]
  simp

/-- The spanning-tree outcome required of a generator run on a
`width × height` maze: `w*h - 1` opened wall pairs, the open-wall graph
on the cells is connected and acyclic, and its adjacency coincides with
the final `open_walls` cell state. -/
def SpanningOutcome (w h : Nat) (walls : List (Cell × Cell)) (W : WallState) : Prop :=
  walls.length = w * h - 1 ∧
  (mazeGraph w h walls).Connected ∧
  (mazeGraph w h walls).IsAcyclic ∧
  (∀ a b : Fin h × Fin w, (mazeGraph w h walls).Adj a b ↔
    ∃ d, Direction.between (toCell a) (toCell b) = some d ∧ (toCell a, d) ∈ W)

/-- A full tree invariant over all cells yields the spanning-tree
outcome. -/
theorem treeInv_spanning {w h : Nat} {c0 : Cell} {walls : List (Cell × Cell)}
    {W : WallState} (hw : 1 ≤ w) (hh : 1 ≤ h)
    (hinv : TreeInv w h c0 (validCells w h) walls)
    (hmatch : applyOpens ∅ walls = some W) :
    SpanningOutcome w h walls W := by
  obtain ⟨h0, hSv, hwalls, hcount, hreach, hpair, hacyc⟩ := hinv
  refine ⟨?_, ?_, hacyc, ?_⟩
  · rw [validCells_card, Nat.mul_comm h w] at hcount
    have hmul : 1 ≤ w * h := Nat.mul_pos hw hh
    omega
  · rw [SimpleGraph.connected_iff]
    constructor
    · intro u v
      have hu := toCell_mem_validCells u
      have hv := toCell_mem_validCells v
      have r1 := wallReach_reachable hwalls (hreach _ hu) h0 hu
      have r2 := wallReach_reachable hwalls (hreach _ hv) h0 hv
      rw [toVtx_toCell] at r1 r2
      exact r1.symm.trans r2
    · exact ⟨(⟨0, hh⟩, ⟨0, hw⟩)⟩
  · exact mazeGraph_adj_iff_wall hmatch (fun e he => (hwalls e he).2.2)

theorem mem_gridAdjOf {w h : Nat} {c n : Cell} :
    n ∈ (gridGraph w h).adjOf c ↔
      c ∈ validCells w h ∧ n ∈ validCells w h ∧ adjacentCells c n := by
  rw [Graph.mem_adjOf, gridGraph_pairs]

/-- The generator-fold invariant after visiting the cells of `pre` (in
order): open walls touch only visited cells; every `prev_cells` entry
points from a valid cell back to an adjacent visited cell; every
unvisited valid cell adjacent to a visited one has a `prev_cells` entry;
the visited cells with the wall trace form a partial spanning tree rooted
at `(0, 0)`; the aggregate `open_walls` state equals the wall trace
replayed; and the events are exactly the trace's wall-removal events. -/
def GenInv (w h : Nat) (pre : List Cell) (st : GenState) : Prop :=
  (∀ q ∈ st.W, q.1 ∈ pre.toFinset) ∧
  (∀ n y, prevFind st.prev n = some y →
    y ∈ pre.toFinset ∧ n ∈ validCells w h ∧ adjacentCells y n) ∧
  (∀ n ∈ validCells w h, n ∉ pre.toFinset →
    (∃ y ∈ pre.toFinset, adjacentCells y n) → (prevFind st.prev n).isSome) ∧
  TreeInv w h (0, 0) pre.toFinset st.walls ∧
  applyOpens ∅ st.walls = some st.W ∧
  st.events = st.walls.map (fun e => wallRemovedEvent e.1 e.2)

/-- Visiting a fresh valid cell adjacent to a visited one succeeds and
preserves the generator invariant. -/
theorem cellVisitor_step {w h : Nat} {enum2 : Cell → List Cell}
    (hE2 : enumOk (gridGraph w h) enum2) {pre : List Cell} {st : GenState}
    {x : Cell} (hinv : GenInv w h pre st) (hxv : x ∈ validCells w h)
    (hxnew : x ∉ pre.toFinset) (hdisc : ∃ y ∈ pre.toFinset, adjacentCells y x) :
    ∃ st', cellVisitor w h enum2 st x = .ok st' ∧ GenInv w h (pre ++ [x]) st' := by
  obtain ⟨hA, hB, hH, hT, hM, hEv⟩ := hinv
  obtain ⟨p, hp⟩ := Option.isSome_iff_exists.mp (hH x hxv hxnew hdisc)
  obtain ⟨hpPre, hxv', hpadj⟩ := hB x p hp
  have hpadj' : (Direction.between p x).isSome := hpadj
  obtain ⟨d, hd⟩ := Option.isSome_iff_exists.mp hpadj'
  have hopen : open_wall st.W p x =
      some (insert (x, d.opposite) (insert (p, d) st.W)) := by
    unfold open_wall
    rw [hd]
    rfl
  have henum2 := hE2 x hxv
  have hmemnb : ∀ n ∈ enum2 x, n ∈ validCells w h ∧ adjacentCells x n := by
    intro n hn
    have : n ∈ (gridGraph w h).adjOf x := by
      rw [← henum2.2]
      exact List.mem_toFinset.mpr hn
    have hq := mem_gridAdjOf.mp this
    exact ⟨hq.2.1, hq.2.2⟩
  refine ⟨⟨assignPrev enum2 st.prev (insert (x, d.opposite) (insert (p, d) st.W)) x,
           insert (x, d.opposite) (insert (p, d) st.W),
           st.walls ++ [(p, x)],
           st.events ++ [wallRemovedEvent p x]⟩, ?_, ?_⟩
  · unfold cellVisitor
    rw [hp]
    dsimp only
    rw [hopen]
    dsimp only
    rw [if_pos hxv]
  · have hpreF : (pre ++ [x]).toFinset = insert x pre.toFinset :=
      toFinset_append_singleton pre x
    have hfind : ∀ n, prevFind (assignPrev enum2 st.prev
        (insert (x, d.opposite) (insert (p, d) st.W)) x) n =
          if n ∈ (enum2 x).filter
              (fun m => decide (noOpenWalls (insert (x, d.opposite)
                (insert (p, d) st.W)) m)) then
            some x
          else prevFind st.prev n := by
      intro n
      unfold assignPrev
      exact prevFind_foldl x _ st.prev n
    refine ⟨?_, ?_, ?_, ?_, ?_, ?_⟩
    · intro q hq
      rw [hpreF]
      rcases Finset.mem_insert.mp hq with rfl | hq'
      · exact Finset.mem_insert_self x _
      · rcases Finset.mem_insert.mp hq' with rfl | hq''
        · exact Finset.mem_insert_of_mem hpPre
        · exact Finset.mem_insert_of_mem (hA q hq'')
    · intro n y hy
      rw [hfind n] at hy
      rw [hpreF]
      split_ifs at hy with hnf
      · obtain rfl : x = y := by injection hy
        have hn := List.mem_filter.mp hnf
        obtain ⟨hnval, hnadj⟩ := hmemnb n hn.1
        exact ⟨Finset.mem_insert_self x _, hnval, hnadj⟩
      · obtain ⟨hyPre, hnval, hnadj⟩ := hB n y hy
        exact ⟨Finset.mem_insert_of_mem hyPre, hnval, hnadj⟩
    · intro n hnval hnnew hdisc'
      rw [hfind n]
      split_ifs with hnf
      · rfl
      · rw [hpreF] at hnnew
        have hnnewold : n ∉ pre.toFinset := fun hc =>
          hnnew (Finset.mem_insert_of_mem hc)
      
        obtain ⟨y, hy, hyadj⟩ := hdisc'
        rw [hpreF] at hy
        rcases Finset.mem_insert.mp hy with rfl | hyold
        · -- `y = x`: `n` would have been assigned; contradiction with `hnf`
          exfalso
          apply hnf
          rw [List.mem_filter]
          refine ⟨?_, ?_⟩
          · rw [← List.mem_toFinset, henum2.2, mem_gridAdjOf]
            exact ⟨hxv, hnval, hyadj⟩
          · rw [decide_eq_true_eq]
            intro q hq hq1
            rcases Finset.mem_insert.mp hq with rfl | hq'
            · exact hnnew (by rw [← hq1]; exact Finset.mem_insert_self _ _)
            · rcases Finset.mem_insert.mp hq' with rfl | hq''
              · exact hnnewold (by rw [← hq1]; exact hpPre)
              · exact hnnewold (by rw [← hq1]; exact hA q hq'')
        · exact hH n hnval hnnewold ⟨y, hyold, hyadj⟩
    · rw [hpreF]
      exact treeInv_extend hT hpPre hxnew hxv hpadj (Or.inl rfl)
    · rw [applyOpens_append_singleton, hM]
      exact hopen
    · rw [hEv, List.map_append]
      rfl

/-- The first visit, of cell `(0, 0)` from the initial state, establishes
the invariant. -/
theorem cellVisitor_init {w h : Nat} {enum2 : Cell → List Cell}
    (hE2 : enumOk (gridGraph w h) enum2) (h00 : ((0, 0) : Cell) ∈ validCells w h) :
    ∃ st', cellVisitor w h enum2 initGenState (0, 0) = .ok st' ∧
      GenInv w h [(0, 0)] st' := by
  have henum2 := hE2 (0, 0) h00
  have hmemnb : ∀ n ∈ enum2 (0, 0), n ∈ validCells w h ∧ adjacentCells (0, 0) n := by
    intro n hn
    have : n ∈ (gridGraph w h).adjOf (0, 0) := by
      rw [← henum2.2]
      exact List.mem_toFinset.mpr hn
    have hq := mem_gridAdjOf.mp this
    exact ⟨hq.2.1, hq.2.2⟩
  have htf : ([((0, 0) : Cell)]).toFinset = {((0, 0) : Cell)} := by simp
  refine ⟨⟨assignPrev enum2 [] ∅ (0, 0), ∅, [], []⟩, ?_, ?_⟩
  · have hred : cellVisitor w h enum2 initGenState (0, 0) =
        if ((0, 0) : Cell) ∈ validCells w h then
          .ok ⟨assignPrev enum2 [] ∅ (0, 0), ∅, [], []⟩
        else .error "Invalid row or column" := rfl
    rw [hred, if_pos h00]
  · have hfind : ∀ n, prevFind (assignPrev enum2 [] ∅ (0, 0)) n =
        if n ∈ (enum2 (0, 0)).filter (fun m => decide (noOpenWalls ∅ m)) then
          some (0, 0)
        else none := by
      intro n
      unfold assignPrev
      exact prevFind_foldl (0, 0) _ [] n
    refine ⟨?_, ?_, ?_, ?_, rfl, rfl⟩
    · intro q hq
      exact absurd hq (Finset.not_mem_empty _)
    · intro n y hy
      rw [hfind n] at hy
      rw [htf]
      split_ifs at hy with hnf
      · obtain rfl : ((0, 0) : Cell) = y := by injection hy
        have hn := List.mem_filter.mp hnf
        obtain ⟨hnval, hnadj⟩ := hmemnb n hn.1
        exact ⟨Finset.mem_singleton_self _, hnval, hnadj⟩
    · intro n hnval hnnew hdisc'
      rw [hfind n]
      split_ifs with hnf
      · rfl
      · exfalso
        apply hnf
        obtain ⟨y, hy, hyadj⟩ := hdisc'
        rw [htf, Finset.mem_singleton] at hy
        rw [List.mem_filter]
        refine ⟨?_, ?_⟩
        · rw [← List.mem_toFinset, henum2.2, mem_gridAdjOf]
          exact ⟨h00, hnval, by rw [← hy]; exact hyadj⟩
        · rw [decide_eq_true_eq]
          intro q hq
          exact absurd hq (Finset.not_mem_empty _)
    · rw [htf]
      exact treeInv_init h00

/-- Folding the visitor over the remaining visit order preserves the
invariant and never raises. -/
theorem genFold_spec {w h : Nat} {enum2 : Cell → List Cell}
    (hE2 : enumOk (gridGraph w h) enum2) :
    ∀ (rem pre : List Cell) (st : GenState), GenInv w h pre st →
      (pre ++ rem).Nodup → DiscList (gridGraph w h) (pre ++ rem) →
      pre ≠ [] → (∀ x ∈ rem, x ∈ validCells w h) →
      ∃ st', genFold w h enum2 st rem = .ok st' ∧ GenInv w h (pre ++ rem) st' := by
  intro rem
  induction rem with
  | nil =>
    intro pre st hinv _ _ _ _
    exact ⟨st, rfl, by rwa [List.append_nil]⟩
  | cons x rem' ih =>
    intro pre st hinv hnd hdl hne hval
    have hxv := hval x (List.mem_cons_self x rem')
    have hxnew : x ∉ pre.toFinset := by
      intro hmem
      have hx1 := List.mem_toFinset.mp hmem
      have hdisj := (List.nodup_append.mp hnd).2.2
      exact hdisj hx1 (List.mem_cons_self x rem')
    have hdisc : ∃ y ∈ pre.toFinset, adjacentCells y x := by
      rcases hdl pre x rem' rfl with hemp | ⟨y, hy, hpair⟩
      · exact absurd hemp hne
      · rw [gridGraph_pairs] at hpair
        exact ⟨y, List.mem_toFinset.mpr hy, hpair.2.2⟩
    obtain ⟨st1, hst1, hinv1⟩ := cellVisitor_step hE2 hinv hxv hxnew hdisc
    have hfold : genFold w h enum2 st (x :: rem') = genFold w h enum2 st1 rem' := by
      have hmatch : genFold w h enum2 st (x :: rem') =
          match cellVisitor w h enum2 st x with
          | .error e => .error e
          | .ok st2 => genFold w h enum2 st2 rem' := rfl
      rw [hmatch, hst1]
    rw [hfold]
    have happ : (pre ++ [x]) ++ rem' = pre ++ x :: rem' := by simp
    obtain ⟨st', hst', hinv'⟩ := ih (pre ++ [x]) st1 hinv1
      (by rw [happ]; exact hnd) (by rw [happ]; exact hdl)
      (by simp) (fun z hz => hval z (List.mem_cons_of_mem x hz))
    refine ⟨st', hst', ?_⟩
    rwa [happ] at hinv'

/-- Reachability in the grid graph stays within the valid cells. -/
theorem gridGraph_reaches_valid {w h : Nat} {a b : Cell}
    (ha : a ∈ validCells w h) (hr : (gridGraph w h).Reaches a b) :
    b ∈ validCells w h := by
  induction hr with
  | refl => exact ha
  | tail _ hbc _ => exact (gridGraph_pairs.mp hbc).2.1

/-- A full depth-first-search generator run on a nonempty grid succeeds
and leaves a spanning tree of the grid in the wall trace, a matching
aggregate `open_walls` state, and exactly one `WALL_REMOVED` event per
opened wall. -/
theorem generate_maze_spec {w h : Nat} (hw : 1 ≤ w) (hh : 1 ≤ h)
    {enum enum2 : Cell → List Cell} (hE : enumOk (gridGraph w h) enum)
    (hE2 : enumOk (gridGraph w h) enum2) :
    ∃ st, generate_maze w h enum enum2 = .ok st ∧
      TreeInv w h (0, 0) (validCells w h) st.walls ∧
      applyOpens ∅ st.walls = some st.W ∧
      st.events = st.walls.map (fun e => wallRemovedEvent e.1 e.2) := by
  have h00 : ((0, 0) : Cell) ∈ validCells w h := mem_validCells.mpr ⟨hh, hw⟩
  have h00' : ((0, 0) : Cell) ∈ (gridGraph w h).verts := h00
  obtain ⟨order, horder, hhead, hnd, hmem, hdl⟩ :=
    searchRun_spec (gridGraph_invariant w h) hE dfsCombine_ok h00'
  have hdfs : (gridGraph w h).depth_first_search enum (0, 0) = .ok order := by
    unfold Graph.depth_first_search Graph.ensure
    rw [if_pos h00']
    exact horder
  have hvalid : ∀ x ∈ order, x ∈ validCells w h := by
    intro x hx
    exact gridGraph_reaches_valid h00 ((hmem x).mp hx)
  have hcov : order.toFinset = validCells w h := by
    ext c
    rw [List.mem_toFinset]
    constructor
    · exact hvalid c
    · intro hc
      exact (hmem c).mpr (gridGraph_reaches_origin w h (c.1 + c.2) c rfl hc)
  obtain ⟨rest, hrest⟩ : ∃ rest, order = (0, 0) :: rest := by
    cases horderc : order with
    | nil =>
      rw [horderc] at hhead
      cases hhead
    | cons a t =>
      rw [horderc] at hhead
      have : a = (0, 0) := by injection hhead
      exact ⟨t, by rw [this]⟩
  obtain ⟨st1, hst1, hinv1⟩ := cellVisitor_init hE2 h00
  have hfold1 : genFold w h enum2 initGenState order = genFold w h enum2 st1 rest := by
    rw [hrest]
    have hmatch : genFold w h enum2 initGenState ((0, 0) :: rest) =
        match cellVisitor w h enum2 initGenState (0, 0) with
        | .error e => .error e
        | .ok st2 => genFold w h enum2 st2 rest := rfl
    rw [hmatch, hst1]
  have hord1 : ([((0, 0) : Cell)]) ++ rest = order := by
    rw [hrest]
    rfl
  obtain ⟨st', hst', hinv'⟩ := genFold_spec hE2 rest [(0, 0)] st1 hinv1
    (by rw [hord1]; exact hnd) (by rw [hord1]; exact hdl)
    (by simp) (fun z hz => hvalid z (by rw [hrest]; exact List.mem_cons_of_mem _ hz))
  rw [hord1] at hinv'
  obtain ⟨-, -, -, hT, hM, hEv⟩ := hinv'
  rw [hcov] at hT
  refine ⟨st', ?_, hT, hM, hEv⟩
  unfold generate_maze
  rw [hdfs]
  dsimp only
  rw [hfold1]
  exact hst'

/-! ## The `PrimsGenerator`

`generate_maze` marks a random start cell, then repeatedly pops an
arbitrary frontier cell, opens a wall to an arbitrary already-included
neighbor, and marks the popped cell.  The random start, the arbitrary
`set.pop()` choice and the arbitrary `next(...)` choice are modelled as
the nondeterminism of a step relation. -/

/-- The `MazeUpdate` built by `PrimsGenerator.on_cell_marked`. -/
def cellMarkedEvent (c : Cell) (nf : Finset Cell) : MazeUpdate :=
  ⟨MazeUpdateType.CELL_MARKED, c, none, some nf⟩

/-- The mutable state of `PrimsGenerator`: `included_cells`, `frontier`,
the aggregate `open_walls` (`W`), the `open_wall` call trace, and the
dispatched events. -/
structure PState where
  included : Finset Cell
  frontier : Finset Cell
  W : WallState
  walls : List (Cell × Cell)
  events : List MazeUpdate

/-- `set(n for n in self.maze.neighbors(*cell.coordinates) if not
n.open_walls)`, the new frontier cells computed by `mark`. -/
def newFrontier (w h : Nat) (W : WallState) (c : Cell) : Finset Cell :=
  ((gridGraph w h).adjOf c).filter (fun n => noOpenWalls W n)

/-- `PrimsGenerator.mark(cell)`: include the cell, add its unopened
neighbors to the frontier, and dispatch a `CELL_MARKED` event. -/
def markPrim (w h : Nat) (st : PState) (c : Cell) : PState :=
  { st with included := insert c st.included,
            frontier := st.frontier ∪ newFrontier w h st.W c,
            events := st.events ++ [cellMarkedEvent c (newFrontier w h st.W c)] }

/-- The generator state right after `self.mark(start_cell)`. -/
def primInit (w h : Nat) (s : Cell) : PState :=
  markPrim w h ⟨∅, ∅, ∅, [], []⟩ s

/-- One iteration of the `while self.frontier` loop: pop any frontier
cell, pick any already-included neighbor of it, open the wall between
them (dispatching `WALL_REMOVED`), and mark the popped cell. -/
inductive PrimStep (w h : Nat) : PState → PState → Prop
  | step (st : PState) (next nbr : Cell) (W' : WallState) :
      next ∈ st.frontier →
      nbr ∈ (gridGraph w h).adjOf next →
      nbr ∈ st.included →
      open_wall st.W next nbr = some W' →
      PrimStep w h st
        (markPrim w h
          { st with frontier := st.frontier.erase next, W := W',
                    walls := st.walls ++ [(next, nbr)],
                    events := st.events ++ [wallRemovedEvent next nbr] }
          next)

/-- The loop invariant of Prim's algorithm with start cell `s`: frontier
cells are valid, unincluded, and adjacent to an included cell; open
walls touch only included cells; neighbors of included cells are
included or in the frontier; every included cell has an open wall
(except in the initial one-cell state); the included cells with the
wall trace form a partial spanning tree rooted at `s`; and the wall
state equals the trace replayed. -/
def PrimInv (w h : Nat) (s : Cell) (st : PState) : Prop :=
  (∀ f ∈ st.frontier, f ∈ validCells w h ∧ f ∉ st.included ∧
    ∃ c ∈ st.included, adjacentCells c f) ∧
  (∀ q ∈ st.W, q.1 ∈ st.included) ∧
  (∀ c ∈ st.included, ∀ n, n ∈ (gridGraph w h).adjOf c →
    n ∈ st.included ∨ n ∈ st.frontier) ∧
  ((∀ c ∈ st.included, ¬ noOpenWalls st.W c) ∨ (st.included = {s} ∧ st.W = ∅)) ∧
  TreeInv w h s st.included st.walls ∧
  applyOpens ∅ st.walls = some st.W

theorem primInit_inv {w h : Nat} {s : Cell} (hs : s ∈ validCells w h) :
    PrimInv w h s (primInit w h s) := by
  show PrimInv w h s ⟨insert s ∅, ∅ ∪ newFrontier w h ∅ s, ∅, [],
    [] ++ [cellMarkedEvent s (newFrontier w h ∅ s)]⟩
  have hmemnf : ∀ f, f ∈ (∅ ∪ newFrontier w h ∅ s : Finset Cell) ↔
      (f ∈ (gridGraph w h).adjOf s ∧ noOpenWalls ∅ f) := by
    intro f
    rw [Finset.empty_union]
    exact Finset.mem_filter
  refine ⟨?_, ?_, ?_, ?_, ?_, rfl⟩
  · intro f hf
    obtain ⟨hfa, -⟩ := (hmemnf f).mp hf
    obtain ⟨hsv, hfv, hadj⟩ := mem_gridAdjOf.mp hfa
    refine ⟨hfv, ?_, s, Finset.mem_insert_self s ∅, hadj⟩
    intro hc
    rcases Finset.mem_insert.mp hc with rfl | hc'
    · exact adjacentCells_ne hadj rfl
    · exact absurd hc' (Finset.not_mem_empty f)
  · intro q hq
    exact absurd hq (Finset.not_mem_empty q)
  · intro c hc n hn
    rcases Finset.mem_insert.mp hc with rfl | hc'
    · refine Or.inr ((hmemnf n).mpr ⟨hn, ?_⟩)
      intro e he
      exact absurd he (Finset.not_mem_empty e)
    · exact absurd hc' (Finset.not_mem_empty c)
  · exact Or.inr ⟨rfl, rfl⟩
  · exact treeInv_init hs

/-- One loop iteration preserves the Prim invariant. -/
theorem primStep_inv {w h : Nat} {s : Cell} {st st' : PState}
    (hinv : PrimInv w h s st) (hstep : PrimStep w h st st') :
    PrimInv w h s st' := by
  obtain ⟨hF, hW, hC, hO, hT, hM⟩ := hinv
  cases hstep with
  | step next nbr W' hnext hnbradj hnbrinc hopen =>
    show PrimInv w h s ⟨insert next st.included,
      (st.frontier.erase next) ∪ newFrontier w h W' next, W',
      st.walls ++ [(next, nbr)],
      (st.events ++ [wallRemovedEvent next nbr]) ++
        [cellMarkedEvent next (newFrontier w h W' next)]⟩
    obtain ⟨hnextval, hnextninc, -⟩ := hF next hnext
    obtain ⟨-, hnbrval, hadjnn⟩ := mem_gridAdjOf.mp hnbradj
    obtain ⟨d, hd, hW'⟩ : ∃ d, Direction.between next nbr = some d ∧
        W' = insert (nbr, d.opposite) (insert (next, d) st.W) := by
      unfold open_wall at hopen
      cases hb : Direction.between next nbr with
      | none =>
        rw [hb] at hopen
        cases hopen
      | some d =>
        rw [hb] at hopen
        simp only [Option.map_some'] at hopen
        exact ⟨d, rfl, (Option.some.inj hopen).symm⟩
    have hWsub : st.W ⊆ W' := by
      rw [hW']
      exact (Finset.subset_insert _ _).trans (Finset.subset_insert _ _)
    have hWcell : ∀ q ∈ W', q.1 ∈ insert next st.included := by
      intro q hq
      rw [hW'] at hq
      rcases Finset.mem_insert.mp hq with rfl | hq'
      · exact Finset.mem_insert_of_mem hnbrinc
      · rcases Finset.mem_insert.mp hq' with rfl | hq''
        · exact Finset.mem_insert_self _ _
        · exact Finset.mem_insert_of_mem (hW q hq'')
    have hincop : ∀ c ∈ insert next st.included, ¬ noOpenWalls W' c := by
      intro c hc hno
      rcases Finset.mem_insert.mp hc with rfl | hc'
      · have hmem : ((c, d) : Cell × Direction) ∈ W' := by
          rw [hW']
          exact Finset.mem_insert_of_mem (Finset.mem_insert_self _ _)
        exact hno (c, d) hmem rfl
      · rcases hO with hop | ⟨hone, hWemp⟩
        · exact hop c hc' (fun e he => hno e (hWsub he))
        · rw [hone, Finset.mem_singleton] at hc'
          have hnbrs : nbr = s := by
            rw [hone, Finset.mem_singleton] at hnbrinc
            exact hnbrinc
          apply hno (nbr, d.opposite) (by rw [hW']; exact Finset.mem_insert_self _ _)
          rw [hnbrs, hc']
    have hmemnf : ∀ f, f ∈ newFrontier w h W' next ↔
        (f ∈ (gridGraph w h).adjOf next ∧ noOpenWalls W' f) :=
      fun f => Finset.mem_filter
    refine ⟨?_, hWcell, ?_, Or.inl hincop, ?_, ?_⟩
    · intro f hf
      rcases Finset.mem_union.mp hf with hf' | hf'
      · have hfne := Finset.ne_of_mem_erase hf'
        obtain ⟨hfval, hfninc, c, hcinc, hcadj⟩ := hF f (Finset.mem_of_mem_erase hf')
        refine ⟨hfval, ?_, c, Finset.mem_insert_of_mem hcinc, hcadj⟩
        intro hcmem
        rcases Finset.mem_insert.mp hcmem with rfl | hmem'
        · exact hfne rfl
        · exact hfninc hmem'
      · obtain ⟨hfa, hfno⟩ := (hmemnf f).mp hf'
        obtain ⟨-, hfval, hfadj⟩ := mem_gridAdjOf.mp hfa
        refine ⟨hfval, ?_, next, Finset.mem_insert_self _ _, hfadj⟩
        intro hcmem
        exact hincop f hcmem hfno
    · intro c hc n hn
      rcases Finset.mem_insert.mp hc with rfl | hc'
      · by_cases hno : noOpenWalls W' n
        · exact Or.inr (Finset.mem_union_right _ ((hmemnf n).mpr ⟨hn, hno⟩))
        · left
          unfold noOpenWalls at hno
          push_neg at hno
          obtain ⟨e, he, he1⟩ := hno
          rw [← he1]
          exact hWcell e he
      · rcases hC c hc' n hn with hin | hfr
        · exact Or.inl (Finset.mem_insert_of_mem hin)
        · by_cases hne : n = next
          · rw [hne]
            exact Or.inl (Finset.mem_insert_self _ _)
          · exact Or.inr (Finset.mem_union_left _ (Finset.mem_erase_of_ne_of_mem hne hfr))
    · exact treeInv_extend hT hnbrinc hnextninc hnextval
        (adjacentCells_symm hadjnn) (Or.inr rfl)
    · rw [applyOpens_append_singleton, hM]
      exact hopen

/-- The invariant holds in every state reachable from the initial mark. -/
theorem primReach_inv {w h : Nat} {s : Cell} {st : PState}
    (hs : s ∈ validCells w h)
    (hrun : Relation.ReflTransGen (PrimStep w h) (primInit w h s) st) :
    PrimInv w h s st := by
  induction hrun with
  | refl => exact primInit_inv hs
  | tail _ hstep ih => exact primStep_inv ih hstep

/-- When the frontier empties, every valid cell has been included. -/
theorem primTerminal_included {w h : Nat} {s : Cell} {st : PState}
    (hs : s ∈ validCells w h) (hinv : PrimInv w h s st)
    (hempty : st.frontier = ∅) : st.included = validCells w h := by
  obtain ⟨hF, hW, hC, hO, hT, hM⟩ := hinv
  apply Finset.Subset.antisymm hT.2.1
  intro c hc
  have hclosed : ∀ a b : Cell, (gridGraph w h).Reaches a b →
      a ∈ st.included → b ∈ st.included := by
    intro a b hr
    induction hr with
    | refl => exact id
    | tail hab hbc ih =>
      intro ha
      have hmid := ih ha
      rcases hC _ hmid _ (Graph.mem_adjOf.mpr hbc) with hin | hfr
      · exact hin
      · rw [hempty] at hfr
        exact absurd hfr (Finset.not_mem_empty _)
  have hsreach : (gridGraph w h).Reaches s c :=
    Relation.ReflTransGen.trans
      (gridGraph_reaches_symm (gridGraph_reaches_origin w h (s.1 + s.2) s rfl hs))
      (gridGraph_reaches_origin w h (c.1 + c.2) c rfl hc)
  exact hclosed s c hsreach hT.1

/-- While the frontier is nonempty, a loop iteration is possible (the
`next(...)` search for an included neighbor always succeeds), and it
strictly grows the included set. -/
theorem prim_progress {w h : Nat} {s : Cell} {st : PState}
    (hinv : PrimInv w h s st) (hne : st.frontier ≠ ∅) :
    ∃ st', PrimStep w h st st' ∧ ∃ next, next ∉ st.included ∧
      next ∈ validCells w h ∧ st'.included = insert next st.included := by
  obtain ⟨next, hnext⟩ := Finset.nonempty_iff_ne_empty.mpr hne
  obtain ⟨hval, hninc, c, hcinc, hcadj⟩ := hinv.1 next hnext
  have hcval : c ∈ validCells w h := hinv.2.2.2.2.1.2.1 hcinc
  have hadjnc : adjacentCells next c := adjacentCells_symm hcadj
  have hcadjOf : c ∈ (gridGraph w h).adjOf next :=
    Graph.mem_adjOf.mpr (gridGraph_pairs.mpr ⟨hval, hcval, hadjnc⟩)
  have hop : (Direction.between next c).isSome := hadjnc
  obtain ⟨d, hd⟩ := Option.isSome_iff_exists.mp hop
  have hopen : open_wall st.W next c =
      some (insert (c, d.opposite) (insert (next, d) st.W)) := by
    unfold open_wall
    rw [hd]
    rfl
  refine ⟨_, PrimStep.step st next c _ hnext hcadjOf hcinc hopen,
    next, hninc, hval, rfl⟩

/-- Every run of the loop reaches an empty frontier: each iteration
includes a new valid cell, and a frontier cell exists only while some
valid cell is unincluded. -/
theorem prim_terminates {w h : Nat} {s : Cell} :
    ∀ (k : Nat) (st : PState), PrimInv w h s st →
      (validCells w h).card - st.included.card ≤ k →
      ∃ st', Relation.ReflTransGen (PrimStep w h) st st' ∧ st'.frontier = ∅ := by
  intro k
  induction k with
  | zero =>
    intro st hinv hk
    by_cases hf : st.frontier = ∅
    · exact ⟨st, Relation.ReflTransGen.refl, hf⟩
    · exfalso
      obtain ⟨f, hfmem⟩ := Finset.nonempty_iff_ne_empty.mpr hf
      obtain ⟨hfval, hfninc, -⟩ := hinv.1 f hfmem
      have hsub : st.included ⊆ validCells w h := hinv.2.2.2.2.1.2.1
      have hcard : (validCells w h).card ≤ st.included.card := by
        have := Finset.card_le_card hsub
        omega
      have heq : st.included = validCells w h :=
        Finset.eq_of_subset_of_card_le hsub hcard
      rw [heq] at hfninc
      exact hfninc hfval
  | succ k ih =>
    intro st hinv hk
    by_cases hf : st.frontier = ∅
    · exact ⟨st, Relation.ReflTransGen.refl, hf⟩
    · obtain ⟨st'', hstep, next, hninc, hnval, hinc''⟩ := prim_progress hinv hf
      have hinv'' := primStep_inv hinv hstep
      have hsub'' : st''.included ⊆ validCells w h := hinv''.2.2.2.2.1.2.1
      have hcard'' : st''.included.card = st.included.card + 1 := by
        rw [hinc'']
        exact Finset.card_insert_of_not_mem hninc
      have hle'' : st''.included.card ≤ (validCells w h).card :=
        Finset.card_le_card hsub''
      obtain ⟨st', hrun, hempty⟩ := ih st'' hinv'' (by omega)
      exact ⟨st', Relation.ReflTransGen.head hstep hrun, hempty⟩

/-- **C1.** For every `width ≥ 1` and `height ≥ 1`, running either
provided generator (`RandomDepthFirstSearchGenerator`, for any iteration
orders of the traversal's and the visitor's neighbor sets, or
`PrimsGenerator`, for any start cell and any resolution of its arbitrary
`pop`/`next` choices) on a fresh `width × height` maze succeeds, opens
exactly `width*height - 1` wall pairs, and the graph on the cells whose
edges are exactly the open-wall pairs is connected and acyclic — a
spanning tree of the grid; moreover that graph's adjacency coincides
with the final per-cell `open_walls` state, and every Prim run
terminates with an empty frontier. -/
theorem generators_produce_spanning_tree (w h : Nat) (hw : 1 ≤ w) (hh : 1 ≤ h) :
    (∀ enum enum2 : Cell → List Cell, enumOk (gridGraph w h) enum →
      enumOk (gridGraph w h) enum2 →
      ∃ st : GenState, generate_maze w h enum enum2 = .ok st ∧
        SpanningOutcome w h st.walls st.W) ∧
    (∀ s ∈ validCells w h,
      (∀ st : PState, Relation.ReflTransGen (PrimStep w h) (primInit w h s) st →
        st.frontier = ∅ → SpanningOutcome w h st.walls st.W) ∧
      ∃ st : PState, Relation.ReflTransGen (PrimStep w h) (primInit w h s) st ∧
        st.frontier = ∅) := by
  constructor
  · intro enum enum2 hE hE2
    obtain ⟨st, hok, hT, hM, hEv⟩ := generate_maze_spec hw hh hE hE2
    exact ⟨st, hok, treeInv_spanning hw hh hT hM⟩
  · intro s hs
    constructor
    · intro st hrun hterm
      have hinv := primReach_inv hs hrun
      have hcov := primTerminal_included hs hinv hterm
      have hT := hinv.2.2.2.2.1
      rw [hcov] at hT
      exact treeInv_spanning hw hh hT hinv.2.2.2.2.2
    · exact prim_terminates ((validCells w h).card) (primInit w h s)
        (primInit_inv hs) (Nat.sub_le _ _)

/-- The trivial neighbor-iteration oracle of the `1 × 1` grid. -/
def c1Enum : Cell → List Cell := fun _ => []

theorem generators_produce_spanning_tree_witness :
    (1 ≤ 1) ∧ enumOk (gridGraph 1 1) c1Enum ∧
    (((0, 0) : Cell) ∈ validCells 1 1) ∧
    (∃ st : GenState, generate_maze 1 1 c1Enum c1Enum = .ok st ∧
      SpanningOutcome 1 1 st.walls st.W) ∧
    (∃ st : PState, Relation.ReflTransGen (PrimStep 1 1) (primInit 1 1 (0, 0)) st ∧
      st.frontier = ∅) := by
  have hmain := generators_produce_spanning_tree 1 1 (by decide) (by decide)
  refine ⟨by decide, by decide, by decide, ?_, ?_⟩
  · exact hmain.1 c1Enum c1Enum (by decide) (by decide)
  · exact (hmain.2 (0, 0) (by decide)).2

/-! ## The `MazeSolver` (`labyrinth/solve.py`)

`solve.py` references pieces of the `Maze` API that are absent from
`src/` (`maze.start_cell`, `maze.end_cell`, `maze.neighbor(cell,
direction)`, and a `Direction` imported from `labyrinth.grid`, which
defines none); those pieces are modelled from the spec (§4.6).
Everything else is translated from `solve.py`: the solver state is the
maze's dimensions and aggregate wall state, and the unbounded `while`
loops are fuelled.  As with the generator, the depth-first traversals
never read the visitor's writes, so each runs as a visit order followed
by a fold of the visitor. -/

/-- Modelled from the spec: `maze.start_cell` is `(0, 0)`. -/
def startCell : Cell := (0, 0)

/-- Modelled from the spec: `maze.end_cell` is `(height-1, width-1)`. -/
def endCell (w h : Nat) : Cell := (h - 1, w - 1)

/-- Modelled from the spec: `maze.neighbor(cell, direction)`, the
adjacent cell one step in the given direction; stepping outside the grid
fails. -/
def mazeNeighbor (w h : Nat) (c : Cell) (d : Direction) : Option Cell :=
  if 0 ≤ (c.1 : Int) + d.dy ∧ (c.1 : Int) + d.dy < (h : Int) ∧
      0 ≤ (c.2 : Int) + d.dx ∧ (c.2 : Int) + d.dx < (w : Int) then
    some (((c.1 : Int) + d.dy).toNat, ((c.2 : Int) + d.dx).toNat)
  else none

/-- `MazeSolver.is_corridor_cell(cell)`: exactly two open walls which
are mutually opposite. -/
def is_corridor_cell (W : WallState) (c : Cell) : Prop :=
  (openDirs W c).card = 2 ∧ ∀ d ∈ openDirs W c, d.opposite ∈ openDirs W c

instance (W : WallState) (c : Cell) : Decidable (is_corridor_cell W c) := by
  unfold is_corridor_cell
  infer_instance

/-- `MazeSolver.junction_direction(start_junction, end_junction)`:
the axis direction from the signed row/column deltas. -/
def junction_direction (a b : Cell) : Direction :=
  if (b.1 : Int) - (a.1 : Int) = 0 then
    (if (b.2 : Int) - (a.2 : Int) > 0 then .E else .W)
  else (if (b.1 : Int) - (a.1 : Int) > 0 then .S else .N)

/-- The `while self.is_corridor_cell(neighbor)` walk inside
`construct_junction_graph`: step in the fixed direction until a
non-corridor cell is reached. -/
def corridorWalk (w h : Nat) (Wst : WallState) (d : Direction) :
    Nat → Cell → Except String Cell
  | 0, _ => .error "out of fuel"
  | fuel + 1, c =>
      if is_corridor_cell Wst c then
        match mazeNeighbor w h c d with
        | none => .error "Invalid row or column"
        | some c' => corridorWalk w h Wst d fuel c'
      else .ok c

/-- The `for neighbor in self.maze.neighbors(cell)` loop of the junction
`cell_visitor`: for each grid neighbor behind an open wall that is not
yet visited, walk to the far junction cell and record the edge. -/
def junctionCellScan (w h : Nat) (Wst : WallState) (visited : List Cell)
    (fuel : Nat) (c : Cell) : List Cell → Graph Cell → Except String (Graph Cell)
  | [], g => .ok g
  | n :: rest, g =>
      match Direction.between c n with
      | none => .error "StopIteration"
      | some d =>
          if d ∈ openDirs Wst c ∧ n ∉ visited then
            match corridorWalk w h Wst d fuel n with
            | .error e => .error e
            | .ok n' =>
                match ((g.add_vertex c).add_vertex n').add_edge c n' with
                | .error e => .error e
                | .ok g' => junctionCellScan w h Wst visited fuel c rest g'
          else junctionCellScan w h Wst visited fuel c rest g

/-- The junction `cell_visitor` folded over the traversal's visit order;
`visited` holds the cells visited so far (the visitor marks its cell
before scanning). -/
def constructJunctionFold (w h : Nat) (Wst : WallState)
    (enum3 : Cell → List Cell) (fuel : Nat) :
    List Cell → List Cell → Graph Cell → Except String (Graph Cell)
  | [], _, g => .ok g
  | c :: order', visited, g =>
      match junctionCellScan w h Wst (visited ++ [c]) fuel c (enum3 c) g with
      | .error e => .error e
      | .ok g' => constructJunctionFold w h Wst enum3 fuel order' (visited ++ [c]) g'

/-- `MazeSolver.construct_junction_graph`: depth-first search of the
grid graph from the start cell with the junction `cell_visitor`. -/
def construct_junction_graph (w h : Nat) (Wst : WallState)
    (enumS enum3 : Cell → List Cell) (fuel : Nat) : Except String (Graph Cell) :=
  match (gridGraph w h).depth_first_search enumS startCell with
  | .error e => .error e
  | .ok order => constructJunctionFold w h Wst enum3 fuel order [] (Graph.empty true)

/-- `MazeSolver.is_in_solution(cell)`: follow `prev_cells` links until
they run out, then compare with the start cell. -/
def is_in_solution (prevJ : List (Cell × Cell)) : Nat → Cell → Except String Bool
  | 0, _ => .error "out of fuel"
  | fuel + 1, c =>
      match prevFind prevJ c with
      | some c' => is_in_solution prevJ fuel c'
      | none => .ok (decide (c = startCell))

/-- The `for neighbor in self.junction_graph.neighbors(cell)` loop of
`junction_visitor`: record the first neighbor behind an open wall that
already connects to the start, then break. -/
def junctionScan (Wst : WallState) (fuel : Nat) (c : Cell)
    (prevJ : List (Cell × Cell)) : List Cell → Except String (List (Cell × Cell))
  | [] => .ok prevJ
  | n :: rest =>
      if junction_direction c n ∈ openDirs Wst c then
        match is_in_solution prevJ fuel n with
        | .error e => .error e
        | .ok true => .ok ((c, n) :: prevJ)
        | .ok false => junctionScan Wst fuel c prevJ rest
      else junctionScan Wst fuel c prevJ rest

/-- `junction_visitor` folded over the junction traversal's visit order
(`junction_graph.neighbors` fails on unregistered cells). -/
def junctionFold (jg : Graph Cell) (enumJ2 : Cell → List Cell)
    (Wst : WallState) (fuel : Nat) :
    List (Cell × Cell) → List Cell → Except String (List (Cell × Cell))
  | prevJ, [] => .ok prevJ
  | prevJ, c :: order' =>
      if c ∈ jg.verts then
        match junctionScan Wst fuel c prevJ (enumJ2 c) with
        | .error e => .error e
        | .ok prevJ' => junctionFold jg enumJ2 Wst fuel prevJ' order'
      else .error "Invalid vertex"

/-- The inner `while neighbor != cell` corridor-filling loop of
`solve_maze`'s reconstruction. -/
def corridorFill (w h : Nat) (d : Direction) (target : Cell) :
    Nat → Cell → List Cell → Except String (List Cell)
  | 0, _, _ => .error "out of fuel"
  | fuel + 1, nbr, path =>
      if nbr = target then .ok path
      else
        match mazeNeighbor w h nbr d with
        | none => .error "Invalid row or column"
        | some nbr' => corridorFill w h d target fuel nbr' (path ++ [nbr])

/-- The `while path[-1] != self.maze.start_cell` reconstruction loop of
`solve_maze` (following `prev_cells.get`; a `None` current cell fails as
in the source). -/
def reconstructPath (w h : Nat) (prevJ : List (Cell × Cell)) :
    Nat → List Cell → Cell → Option Cell → Except String (List Cell)
  | 0, _, _, _ => .error "out of fuel"
  | fuel + 1, path, prev_cell, cell =>
      if path.getLast? = some startCell then .ok path
      else
        match cell with
        | none => .error "AttributeError"
        | some c =>
            match Direction.between prev_cell c with
            | some _ =>
                reconstructPath w h prevJ fuel (path ++ [c]) c (prevFind prevJ c)
            | none =>
                match mazeNeighbor w h prev_cell (junction_direction prev_cell c) with
                | none => .error "Invalid row or column"
                | some nbr =>
                    match corridorFill w h (junction_direction prev_cell c) c
                        fuel nbr path with
                    | .error e => .error e
                    | .ok path' =>
                        reconstructPath w h prevJ fuel (path' ++ [c]) c
                          (prevFind prevJ c)

/-- `MazeSolver.solve_maze` (and `solve`): construct the junction graph,
orient it towards the start by the junction traversal, then reconstruct
the cell path from the end cell and reverse it. -/
def solve_maze (w h : Nat) (Wst : WallState)
    (enumS enum3 enumJ1 enumJ2 : Cell → List Cell) (fuel : Nat) :
    Except String (List Cell) :=
  match construct_junction_graph w h Wst enumS enum3 fuel with
  | .error e => .error e
  | .ok jg =>
      match jg.depth_first_search enumJ1 startCell with
      | .error e => .error e
      | .ok jorder =>
          match junctionFold jg enumJ2 Wst fuel [] jorder with
          | .error e => .error e
          | .ok prevJ =>
              match reconstructPath w h prevJ fuel [endCell w h] (endCell w h)
                  (prevFind prevJ (endCell w h)) with
              | .error e => .error e
              | .ok path => .ok path.reverse

/-- On the `1 × 1` grid any valid traversal visits exactly `(0, 0)`. -/
theorem dfs_order_one_by_one {enum : Cell → List Cell}
    (hE : enumOk (gridGraph 1 1) enum) :
    (gridGraph 1 1).depth_first_search enum startCell = .ok [((0, 0) : Cell)] := by
  have h00 : startCell ∈ (gridGraph 1 1).verts := by decide
  obtain ⟨order, horder, hhead, hnd, hmem, -⟩ :=
    searchRun_spec (gridGraph_invariant 1 1) hE dfsCombine_ok h00
  have hcell : ∀ x ∈ order, x = ((0, 0) : Cell) := by
    intro x hx
    have hval := gridGraph_reaches_valid
      (by decide : startCell ∈ validCells 1 1) ((hmem x).mp hx)
    rw [mem_validCells] at hval
    exact Prod.ext (Nat.lt_one_iff.mp hval.1) (Nat.lt_one_iff.mp hval.2)
  have hordeq : order = [((0, 0) : Cell)] := by
    cases horderc : order with
    | nil =>
      rw [horderc] at hhead
      cases hhead
    | cons a t =>
      rw [horderc] at hhead
      have ha : a = ((0, 0) : Cell) := by injection hhead
      cases t with
      | nil => rw [ha]
      | cons b t' =>
        exfalso
        have hb : b = ((0, 0) : Cell) := hcell b
          (by rw [horderc]; exact List.mem_cons_of_mem _ (List.mem_cons_self _ _))
        rw [horderc, List.nodup_cons] at hnd
        apply hnd.1
        rw [ha, ← hb]
        exact List.mem_cons_self b t'
  unfold Graph.depth_first_search Graph.ensure
  rw [if_pos h00]
  rw [hordeq] at horder
  exact horder

/-- **C7.** On the `1 × 1` maze the (default) depth-first-search
generator run is a no-op — no wall is opened, the single cell's
`open_walls` stays empty, and no event is dispatched — but
`solver.solve` does not return `[(0, 0)]`: the junction graph is built
empty, so the junction traversal raises the invalid-vertex error. -/
theorem one_by_one_noop_and_solve_raises
    (enum enum2 enumS enum3 enumJ1 enumJ2 : Cell → List Cell) (fuel : Nat)
    (hE : enumOk (gridGraph 1 1) enum) (hE2 : enumOk (gridGraph 1 1) enum2)
    (hES : enumOk (gridGraph 1 1) enumS) (hE3 : enumOk (gridGraph 1 1) enum3) :
    ∃ st : GenState, generate_maze 1 1 enum enum2 = .ok st ∧
      st.walls = [] ∧ st.W = ∅ ∧ st.events = [] ∧
      solve_maze 1 1 st.W enumS enum3 enumJ1 enumJ2 fuel =
        .error "Invalid vertex" := by
  obtain ⟨st, hok, hT, hM, hEv⟩ :=
    generate_maze_spec (le_refl 1) (le_refl 1) hE hE2
  have hcard : (validCells 1 1).card = 1 := by decide
  have hwnil : st.walls = [] := by
    have hcount := hT.2.2.2.1
    rw [hcard] at hcount
    have hzero : st.walls.length = 0 := by omega
    exact List.length_eq_zero.mp hzero
  have hWemp : st.W = ∅ := by
    rw [hwnil] at hM
    have hMM : some (∅ : WallState) = some st.W := hM
    exact (Option.some.inj hMM).symm
  have hEvnil : st.events = [] := by
    rw [hEv, hwnil]
    rfl
  refine ⟨st, hok, hwnil, hWemp, hEvnil, ?_⟩
  rw [hWemp]
  have hord := dfs_order_one_by_one hES
  have h3 : enum3 (0, 0) = [] := by
    cases h3c : enum3 (0, 0) with
    | nil => rfl
    | cons a l =>
      exfalso
      have hmem3 : a ∈ (enum3 (0, 0)).toFinset := by
        rw [h3c]
        simp
      rw [(hE3 (0, 0) (by decide)).2] at hmem3
      have hadj0 : (gridGraph 1 1).adjOf (0, 0) = ∅ := by decide
      rw [hadj0] at hmem3
      exact absurd hmem3 (Finset.not_mem_empty a)
  have hscan : junctionCellScan 1 1 ∅ ([] ++ [((0, 0) : Cell)]) fuel (0, 0)
      (enum3 (0, 0)) (Graph.empty true) = .ok (Graph.empty true) := by
    rw [h3]
    rfl
  have hfold : constructJunctionFold 1 1 ∅ enum3 fuel [((0, 0) : Cell)] []
      (Graph.empty true) = .ok (Graph.empty true) := by
    unfold constructJunctionFold
    rw [hscan]
    rfl
  have hcjg : construct_junction_graph 1 1 ∅ enumS enum3 fuel =
      .ok (Graph.empty true) := by
    unfold construct_junction_graph
    rw [hord]
    exact hfold
  have hjdfs : (Graph.empty true : Graph Cell).depth_first_search enumJ1 startCell =
      .error "Invalid vertex" := by
    unfold Graph.depth_first_search Graph.ensure
    rw [if_neg (by decide : ¬ (startCell ∈ (Graph.empty true : Graph Cell).verts))]
    rfl
  unfold solve_maze
  rw [hcjg]
  dsimp only
  rw [hjdfs]

/-- The trivial neighbor-iteration oracle used by the concrete `1 × 1`
runs. -/
def c7Enum : Cell → List Cell := fun _ => []

theorem one_by_one_noop_and_solve_raises_witness :
    enumOk (gridGraph 1 1) c7Enum ∧
    (∃ st : GenState, generate_maze 1 1 c7Enum c7Enum = .ok st ∧
      st.walls = [] ∧ st.W = ∅ ∧ st.events = [] ∧
      solve_maze 1 1 st.W c7Enum c7Enum c7Enum c7Enum 1 =
        .error "Invalid vertex") :=
  ⟨by decide,
   one_by_one_noop_and_solve_raises c7Enum c7Enum c7Enum c7Enum c7Enum c7Enum 1
     (by decide) (by decide) (by decide) (by decide)⟩

/-- **C7 (counterexample).** On the concretely generated `1 × 1` maze,
generation is indeed a no-op, but `solve` raises the invalid-vertex
error instead of returning the one-element path `[(0, 0)]`. -/
theorem one_by_one_solve_not_singleton :
    generate_maze 1 1 c7Enum c7Enum = .ok ⟨[], ∅, [], []⟩ ∧
    solve_maze 1 1 ∅ c7Enum c7Enum c7Enum c7Enum 1 = .error "Invalid vertex" ∧
    solve_maze 1 1 ∅ c7Enum c7Enum c7Enum c7Enum 1 ≠ .ok [((0, 0) : Cell)] := by
  refine ⟨by rfl, by rfl, ?_⟩
  intro hc
  cases hc

